import Mathlib

/-!
Verification of the `TreeStore` class (src/services/TreeStore.ts).

The store keeps an array of records, a primary table `itemsMap`, a
children table `childrenMap`, a parent table `parentMap`, and two derived
caches `allChildrenCache` and `parentChainCache`.  JavaScript `Map`s are
modelled as association lists with set/delete/lookup; object references
stored inside the maps are modelled as the record values captured at the
moment the reference was stored (the source never mutates a record's
fields in place, it only replaces whole objects, so value snapshots are
an exact model of reference aliasing).  The possibly non-terminating
recursions of the source (the `getAllChildren` recursion, the
`getAllParents` while loop and the `invalidateParentCaches` recursion)
are modelled with an explicit fuel parameter; `none` means the
computation did not finish within the given fuel.
-/

namespace TreeStore

/-- Ids are `string | number` in the source. -/
inductive NodeId where
  | num : Int → NodeId
  | str : String → NodeId
deriving DecidableEq, Repr

/-- A record: an `id`, an optional `parent` reference (`none` models both
`null` and `undefined`, which the source only ever distinguishes through
`!= null`), and a `name` payload standing for the opaque extra fields. -/
structure TreeItem where
  id : NodeId
  parent : Option NodeId
  name : String
deriving DecidableEq, Repr

/-- Lookup in an association list, modelling `Map.get`. -/
def alookup {α : Type} : List (NodeId × α) → NodeId → Option α
  | [], _ => none
  | (k', v) :: rest, k => if k' = k then some v else alookup rest k

/-- Insert or overwrite, modelling `Map.set`. -/
def aset {α : Type} : List (NodeId × α) → NodeId → α → List (NodeId × α)
  | [], k, v => [(k, v)]
  | (k', v') :: rest, k, v =>
      if k' = k then (k, v) :: rest else (k', v') :: aset rest k v

/-- Delete a key, modelling `Map.delete`. -/
def adel {α : Type} : List (NodeId × α) → NodeId → List (NodeId × α)
  | [], _ => []
  | (k', v') :: rest, k =>
      if k' = k then adel rest k else (k', v') :: adel rest k

/-- The state of a `TreeStore` instance: the live record array, the three
index tables and the two caches. -/
structure Store where
  items : List TreeItem
  itemsMap : List (NodeId × TreeItem)
  childrenMap : List (NodeId × List TreeItem)
  parentMap : List (NodeId × TreeItem)
  allChildrenCache : List (NodeId × List TreeItem)
  parentChainCache : List (NodeId × List TreeItem)
deriving DecidableEq, Repr

/-- `getAll()`: returns the live record array. -/
def getAll (s : Store) : List TreeItem := s.items

/-- `getItem(id)`: lookup in the primary table. -/
def getItem (s : Store) (id : NodeId) : Option TreeItem :=
  alookup s.itemsMap id

/-- `getChildren(id)`: `childrenMap.get(id) || []`. -/
def getChildren (s : Store) (id : NodeId) : List TreeItem :=
  (alookup s.childrenMap id).getD []

/-- The children list a raw children table assigns to an id. -/
def childrenOf (cm : List (NodeId × List TreeItem)) (id : NodeId) : List TreeItem :=
  (alookup cm id).getD []

/-- First pass of `buildIndexes`: fill `itemsMap` and give every id an
empty `childrenMap` entry. -/
def buildPassOne (s : Store) : Store :=
  s.items.foldl
    (fun s item =>
      let s := { s with itemsMap := aset s.itemsMap item.id item }
      if (alookup s.childrenMap item.id).isSome then s
      else { s with childrenMap := aset s.childrenMap item.id [] })
    s

/-- Link one record into its parent's children list and the parent table,
exactly as the body of the second `buildIndexes` loop does. -/
def linkParent (s : Store) (item : TreeItem) : Store :=
  match item.parent with
  | none => s
  | some pid =>
    match alookup s.itemsMap pid with
    | none => s
    | some parent =>
      let s := { s with parentMap := aset s.parentMap item.id parent }
      match alookup s.childrenMap pid with
      | some siblings =>
          { s with childrenMap := aset s.childrenMap pid (siblings ++ [item]) }
      | none =>
          { s with childrenMap := aset s.childrenMap pid [item] }

/-- `buildIndexes`: clears the tables and rebuilds them in two passes. -/
def buildIndexes (s : Store) : Store :=
  let s := { s with itemsMap := [], childrenMap := [], parentMap := [],
                    allChildrenCache := [], parentChainCache := [] }
  let s := buildPassOne s
  s.items.foldl linkParent s

/-- The constructor `new TreeStore(items)`. -/
def newStore (items : List TreeItem) : Store :=
  buildIndexes ⟨items, [], [], [], [], []⟩

/-- The `while (currentItem.parent != null)` loop of `getAllParents`.
`fuel` bounds the number of loop iterations; `none` means the loop did
not exit within `fuel` steps. -/
def parentLoop (pm : List (NodeId × TreeItem)) : Nat → TreeItem → Option (List TreeItem)
  | 0, cur =>
    match cur.parent with
    | none => some []
    | some _ =>
      match alookup pm cur.id with
      | none => some []
      | some _ => none
  | f + 1, cur =>
    match cur.parent with
    | none => some []
    | some _ =>
      match alookup pm cur.id with
      | none => some []
      | some par => (parentLoop pm f par).map (par :: ·)

/-- `getAllParents(id)`: cache check, then the upward walk, then caching
of the result (the result excludes the queried record itself). -/
def getAllParents (fuel : Nat) (s : Store) (id : NodeId) :
    Option (List TreeItem × Store) :=
  match alookup s.parentChainCache id with
  | some r => some (r, s)
  | none =>
    match alookup s.itemsMap id with
    | none => some ([], s)
    | some item =>
      match parentLoop s.parentMap fuel item with
      | none => none
      | some res =>
          some (res, { s with parentChainCache := aset s.parentChainCache id res })

/-- The `for (const child of directChildren)` loop of `getAllChildren`:
for each child push the child, then recursively push all of its
descendants, threading the store (the recursion fills the cache). -/
def getAllChildrenGo (rec? : Store → NodeId → Option (List TreeItem × Store)) :
    Store → List TreeItem → Option (List TreeItem × Store)
  | s, [] => some ([], s)
  | s, c :: cs =>
    match rec? s c.id with
    | none => none
    | some (sub, s1) =>
      match getAllChildrenGo rec? s1 cs with
      | none => none
      | some (rest, s2) => some (c :: (sub ++ rest), s2)

/-- `getAllChildren(id)`: cache check, depth-first pre-order traversal,
then caching of the result. -/
def getAllChildren : Nat → Store → NodeId → Option (List TreeItem × Store)
  | 0, s, id =>
    match alookup s.allChildrenCache id with
    | some r => some (r, s)
    | none => none
  | f + 1, s, id =>
    match alookup s.allChildrenCache id with
    | some r => some (r, s)
    | none =>
      match getAllChildrenGo (getAllChildren f) s (getChildren s id) with
      | none => none
      | some (res, s1) =>
          some (res, { s1 with allChildrenCache := aset s1.allChildrenCache id res })

/-- `invalidateParentCaches(id)`: walk up the parent table dropping both
cache entries of every ancestor. -/
def invalidateParentCaches : Nat → Store → NodeId → Option Store
  | 0, s, id =>
    match alookup s.parentMap id with
    | none => some s
    | some _ => none
  | f + 1, s, id =>
    match alookup s.parentMap id with
    | none => some s
    | some parent =>
        invalidateParentCaches f
          { s with allChildrenCache := adel s.allChildrenCache parent.id,
                   parentChainCache := adel s.parentChainCache parent.id }
          parent.id

/-- `invalidateCache(affectedIds)`: for each affected id drop both of its
cache entries, then walk upward. -/
def invalidateCache (fuel : Nat) : Store → List NodeId → Option Store
  | s, [] => some s
  | s, id :: rest =>
    let s := { s with allChildrenCache := adel s.allChildrenCache id,
                      parentChainCache := adel s.parentChainCache id }
    match invalidateParentCaches fuel s id with
    | none => none
    | some s1 => invalidateCache fuel s1 rest

/-- `addItem(item)`: duplicate-id guard (a warning plus early return),
then append, register, link to the parent when it resolves, and
invalidate.  The source passes a `Set` of affected ids to
`invalidateCache`; a plain list is used here, which is observationally
identical because deleting a cache entry and the upward invalidation
walk are idempotent. -/
def addItem (fuel : Nat) (s : Store) (item : TreeItem) : Option Store :=
  if (alookup s.itemsMap item.id).isSome then some s
  else
    let s := { s with items := s.items ++ [item],
                      itemsMap := aset s.itemsMap item.id item }
    let s := { s with childrenMap := aset s.childrenMap item.id [] }
    let s := linkParent s item
    invalidateCache fuel s
      (item.id :: (match item.parent with | some p => [p] | none => []))

/-- Remove the first list element whose id matches, modelling
`findIndex` followed by `splice(index, 1)`. -/
def removeFirstById : List TreeItem → NodeId → List TreeItem
  | [], _ => []
  | x :: xs, id => if x.id = id then xs else x :: removeFirstById xs id

/-- One iteration of the `for (const idToRemove of idsToRemove)` loop of
`removeItem`: delete the id from the primary, children and parent
tables. -/
def removeStep (s : Store) (i : NodeId) : Store :=
  { s with itemsMap := adel s.itemsMap i,
           childrenMap := adel s.childrenMap i,
           parentMap := adel s.parentMap i }

/-- The whole deletion loop of `removeItem`. -/
def removeFold (ids : List NodeId) (s : Store) : Store :=
  ids.foldl removeStep s

/-- The live-sequence filter step of `removeItem`:
`this.items = this.items.filter(item => !idsToRemove.has(item.id))`. -/
def removePrepared (s : Store) (ids : List NodeId) : Store :=
  { s with items := s.items.filter (fun it => ¬ it.id ∈ ids) }

/-- The final step of `removeItem`: remove the id from its former
parent's children list, when that parent has one. -/
def detachFromParent (s : Store) (item : TreeItem) (id : NodeId) : Store :=
  match item.parent with
  | none => s
  | some pid =>
    match alookup s.childrenMap pid with
    | none => s
    | some siblings =>
        { s with childrenMap := aset s.childrenMap pid (removeFirstById siblings id) }

/-- `removeItem(id)`: no-op on an unknown id, otherwise cascade: compute
the descendants, remove them and the id everywhere, detach from the
former parent, invalidate.  The id sets of the source (`Set` objects)
are modelled as plain lists: every operation applied to their members
is idempotent, so duplicates are harmless. -/
def removeItem (fuel : Nat) (s : Store) (id : NodeId) : Option Store :=
  match alookup s.itemsMap id with
  | none => some s
  | some item =>
    match getAllChildren fuel s id with
    | none => none
    | some (allDescendants, s1) =>
      let idsToRemove := id :: allDescendants.map (·.id)
      let s2 := removePrepared s1 idsToRemove
      let s3 := removeFold idsToRemove s2
      let s4 := detachFromParent s3 item id
      invalidateCache fuel s4
        ((match item.parent with | some p => [p] | none => []) ++ idsToRemove)

/-- Replace the first list element whose id matches, modelling
`findIndex` followed by `this.items[index] = item`. -/
def replaceFirstById : List TreeItem → TreeItem → List TreeItem
  | [], _ => []
  | x :: xs, item => if x.id = item.id then item :: xs else x :: replaceFirstById xs item

/-- `updateItem(item)`: no-op on an unknown id, otherwise replace the
record, re-link when the parent changed, invalidate. -/
def updateItem (fuel : Nat) (s : Store) (item : TreeItem) : Option Store :=
  match alookup s.itemsMap item.id with
  | none => some s
  | some existingItem =>
    let oldParent := existingItem.parent
    let newParent := item.parent
    let s := { s with items := replaceFirstById s.items item }
    let s := { s with itemsMap := aset s.itemsMap item.id item }
    let s :=
      if oldParent = newParent then s
      else
        let s :=
          match oldParent with
          | none => s
          | some op =>
            let s :=
              match alookup s.childrenMap op with
              | none => s
              | some siblings =>
                  { s with childrenMap := aset s.childrenMap op (removeFirstById siblings item.id) }
            { s with parentMap := adel s.parentMap item.id }
        match newParent with
        | none => s
        | some np =>
          match alookup s.itemsMap np with
          | none => s
          | some parent =>
            let s := { s with parentMap := aset s.parentMap item.id parent }
            match alookup s.childrenMap np with
            | some siblings =>
                { s with childrenMap := aset s.childrenMap np (siblings ++ [item]) }
            | none =>
                { s with childrenMap := aset s.childrenMap np [item] }
    invalidateCache fuel s
      (item.id :: (oldParent.toList ++ newParent.toList))

/-!
## Specification-side definitions

`descend` is the cache-free recursive recomputation of the descendant
list over a fixed children table; `Reach` is reachability by repeated
`getChildren`; `IsChain` is the ancestor-chain specification of
`getAllParents`.  They are used to state what the cached operations are
supposed to return.
-/

/-- Cache-free recomputation over a list of direct children: each child
followed by its own descendants. -/
def descendList (d : NodeId → Option (List TreeItem)) :
    List TreeItem → Option (List TreeItem)
  | [] => some []
  | c :: cs =>
    match d c.id, descendList d cs with
    | some sub, some rest => some ((c :: sub) ++ rest)
    | _, _ => none

/-- Cache-free recomputation of the full descendant list of an id over a
fixed children table, with fuel. -/
def descend (cm : List (NodeId × List TreeItem)) : Nat → NodeId → Option (List TreeItem)
  | 0, _ => none
  | f + 1, id => descendList (descend cm f) (childrenOf cm id)

/-- A record is reachable from an id by repeated direct-children steps. -/
inductive Reach (cm : List (NodeId × List TreeItem)) : NodeId → TreeItem → Prop
  | direct {id : NodeId} {c : TreeItem} : c ∈ childrenOf cm id → Reach cm id c
  | step {id : NodeId} {c d : TreeItem} :
      Reach cm id c → d ∈ childrenOf cm c.id → Reach cm id d

/-- A single child edge between ids of the children table. -/
def EdgeI (cm : List (NodeId × List TreeItem)) (p q : NodeId) : Prop :=
  ∃ c, c ∈ childrenOf cm p ∧ c.id = q

/-- Id-level reachability along child edges. -/
inductive ReachI (cm : List (NodeId × List TreeItem)) : NodeId → NodeId → Prop
  | single {a b : NodeId} : EdgeI cm a b → ReachI cm a b
  | snoc {a m b : NodeId} : ReachI cm a m → EdgeI cm m b → ReachI cm a b

/-- The ancestor-chain specification: the chain of parent-table entries
walked strictly upward from a record, nearest parent first, ending at
the first record with no parent reference or no parent-table entry. -/
inductive IsChain (pm : List (NodeId × TreeItem)) : TreeItem → List TreeItem → Prop
  | rootStop {cur : TreeItem} : cur.parent = none → IsChain pm cur []
  | missStop {cur : TreeItem} {q : NodeId} :
      cur.parent = some q → alookup pm cur.id = none → IsChain pm cur []
  | step {cur par : TreeItem} {q : NodeId} {L : List TreeItem} :
      cur.parent = some q → alookup pm cur.id = some par →
      IsChain pm par L → IsChain pm cur (par :: L)

/-- Every cache entry of the descendant cache is the value a cache-free
recomputation over the current children table produces. -/
def CacheOK (s : Store) : Prop :=
  ∀ k v, alookup s.allChildrenCache k = some v →
    ∃ f, descend s.childrenMap f k = some v

/-!
## Association-list lemmas
-/

theorem alookup_aset_self {α : Type} (m : List (NodeId × α)) (k : NodeId) (v : α) :
    alookup (aset m k v) k = some v := by
  induction m with
  | nil => simp [aset, alookup]
  | cons e rest ih =>
    obtain ⟨k', v'⟩ := e
    by_cases h : k' = k <;> simp [aset, alookup, h, ih]

theorem alookup_aset_ne {α : Type} (m : List (NodeId × α)) {k j : NodeId} (v : α)
    (h : j ≠ k) : alookup (aset m k v) j = alookup m j := by
  have hkj : k ≠ j := Ne.symm h
  induction m with
  | nil => simp [aset, alookup, hkj]
  | cons e rest ih =>
    obtain ⟨k', v'⟩ := e
    by_cases h1 : k' = k
    · subst h1
      simp [aset, alookup, hkj]
    · simp [aset, alookup, h1, ih]

theorem alookup_adel_self {α : Type} (m : List (NodeId × α)) (k : NodeId) :
    alookup (adel m k) k = none := by
  induction m with
  | nil => simp [adel, alookup]
  | cons e rest ih =>
    obtain ⟨k', v'⟩ := e
    by_cases h : k' = k <;> simp [adel, alookup, h, ih]

theorem alookup_adel_ne {α : Type} (m : List (NodeId × α)) {k j : NodeId}
    (h : j ≠ k) : alookup (adel m k) j = alookup m j := by
  have hkj : k ≠ j := Ne.symm h
  induction m with
  | nil => simp [adel, alookup]
  | cons e rest ih =>
    obtain ⟨k', v'⟩ := e
    by_cases h1 : k' = k
    · subst h1
      simp [adel, alookup, hkj, ih]
    · simp [adel, alookup, h1, ih]

theorem alookup_adel_sub {α : Type} (m : List (NodeId × α)) (k j : NodeId) {v : α}
    (h : alookup (adel m k) j = some v) : alookup m j = some v := by
  by_cases hj : j = k
  · subst hj; simp [alookup_adel_self] at h
  · rwa [alookup_adel_ne m hj] at h

theorem alookup_mem {α : Type} {m : List (NodeId × α)} {k : NodeId} {v : α}
    (h : alookup m k = some v) : (k, v) ∈ m := by
  induction m with
  | nil => simp [alookup] at h
  | cons e rest ih =>
    obtain ⟨k', v'⟩ := e
    by_cases h1 : k' = k
    · subst h1
      simp [alookup] at h
      simp [h]
    · simp [alookup, h1] at h
      exact List.mem_cons_of_mem _ (ih h)

/-!
## Monotonicity and uniqueness of the cache-free recomputation
-/

theorem descendList_mono {d d' : NodeId → Option (List TreeItem)}
    (h : ∀ a L, d a = some L → d' a = some L) :
    ∀ cs L, descendList d cs = some L → descendList d' cs = some L := by
  intro cs
  induction cs with
  | nil => intro L hL; simpa [descendList] using hL
  | cons c cs ih =>
    intro L hL
    simp only [descendList] at hL ⊢
    cases hs : d c.id with
    | none => rw [hs] at hL; simp at hL
    | some sub =>
      cases hr : descendList d cs with
      | none => rw [hs, hr] at hL; simp at hL
      | some rest =>
        rw [hs, hr] at hL
        rw [h _ _ hs, ih _ hr]
        simpa using hL

theorem descend_mono {cm : List (NodeId × List TreeItem)} :
    ∀ {f g : Nat} {id : NodeId} {L : List TreeItem}, f ≤ g →
      descend cm f id = some L → descend cm g id = some L := by
  intro f
  induction f with
  | zero => intro g id L _ h; simp [descend] at h
  | succ f ih =>
    intro g id L hle h
    obtain ⟨g', rfl⟩ : ∃ g', g = g' + 1 := by
      cases g with
      | zero => omega
      | succ g' => exact ⟨g', rfl⟩
    simp only [descend] at h ⊢
    exact descendList_mono (fun a M hM => ih (by omega) hM) _ _ h

theorem descend_unique {cm : List (NodeId × List TreeItem)} {f g : Nat} {id : NodeId}
    {L M : List TreeItem} (hL : descend cm f id = some L)
    (hM : descend cm g id = some M) : L = M := by
  have h1 := descend_mono (le_max_left f g) hL
  have h2 := descend_mono (le_max_right f g) hM
  rw [h1] at h2
  exact (Option.some.injEq _ _ ▸ h2)

/-!
## What the store-threading queries preserve
-/

/-- The two stores agree on everything except the descendant cache. -/
def nonCacheEq (s s' : Store) : Prop :=
  s'.items = s.items ∧ s'.itemsMap = s.itemsMap ∧ s'.childrenMap = s.childrenMap ∧
    s'.parentMap = s.parentMap ∧ s'.parentChainCache = s.parentChainCache

theorem nonCacheEq_refl (s : Store) : nonCacheEq s s :=
  ⟨rfl, rfl, rfl, rfl, rfl⟩

theorem nonCacheEq_trans {s t u : Store} (h1 : nonCacheEq s t) (h2 : nonCacheEq t u) :
    nonCacheEq s u :=
  ⟨h2.1.trans h1.1, h2.2.1.trans h1.2.1, h2.2.2.1.trans h1.2.2.1,
    h2.2.2.2.1.trans h1.2.2.2.1, h2.2.2.2.2.trans h1.2.2.2.2⟩

theorem getAllParents_preserves {fuel : Nat} {s : Store} {id : NodeId}
    {L : List TreeItem} {s' : Store} (h : getAllParents fuel s id = some (L, s')) :
    s'.items = s.items ∧ s'.itemsMap = s.itemsMap ∧ s'.childrenMap = s.childrenMap ∧
      s'.parentMap = s.parentMap ∧ s'.allChildrenCache = s.allChildrenCache := by
  unfold getAllParents at h
  cases hc : alookup s.parentChainCache id with
  | some r =>
    simp only [hc] at h
    simp at h
    rw [← h.2]
    exact ⟨rfl, rfl, rfl, rfl, rfl⟩
  | none =>
    simp only [hc] at h
    cases hi : alookup s.itemsMap id with
    | none =>
      simp only [hi] at h
      simp at h
      rw [← h.2]
      exact ⟨rfl, rfl, rfl, rfl, rfl⟩
    | some item =>
      simp only [hi] at h
      cases hl : parentLoop s.parentMap fuel item with
      | none => simp [hl] at h
      | some res =>
        simp only [hl] at h
        simp at h
        rw [← h.2]
        exact ⟨rfl, rfl, rfl, rfl, rfl⟩

theorem getAllChildren_preserves : ∀ (fuel : Nat) {s : Store} {id : NodeId}
    {L : List TreeItem} {s' : Store},
    getAllChildren fuel s id = some (L, s') → nonCacheEq s s' := by
  intro fuel
  induction fuel with
  | zero =>
    intro s id L s' h
    simp only [getAllChildren] at h
    cases hc : alookup s.allChildrenCache id with
    | some r => simp only [hc] at h; simp at h; rw [← h.2]; exact nonCacheEq_refl s
    | none => simp [hc] at h
  | succ f ih =>
    have go : ∀ (cs : List TreeItem) {s : Store} {L : List TreeItem} {s' : Store},
        getAllChildrenGo (getAllChildren f) s cs = some (L, s') → nonCacheEq s s' := by
      intro cs
      induction cs with
      | nil =>
        intro s L s' h
        simp [getAllChildrenGo] at h
        rw [← h.2]
        exact nonCacheEq_refl s
      | cons c cs ihc =>
        intro s L s' h
        simp only [getAllChildrenGo] at h
        cases h1 : getAllChildren f s c.id with
        | none => simp [h1] at h
        | some p =>
          obtain ⟨sub, s1⟩ := p
          simp only [h1] at h
          cases h2 : getAllChildrenGo (getAllChildren f) s1 cs with
          | none => simp [h2] at h
          | some q =>
            obtain ⟨rest, s2⟩ := q
            simp only [h2] at h
            simp at h
            rw [← h.2]
            exact nonCacheEq_trans (ih h1) (ihc h2)
    intro s id L s' h
    simp only [getAllChildren] at h
    cases hc : alookup s.allChildrenCache id with
    | some r => simp only [hc] at h; simp at h; rw [← h.2]; exact nonCacheEq_refl s
    | none =>
      simp only [hc] at h
      cases hgo : getAllChildrenGo (getAllChildren f) s (getChildren s id) with
      | none => simp [hgo] at h
      | some p =>
        obtain ⟨res, s1⟩ := p
        simp only [hgo] at h
        simp at h
        rw [← h.2]
        have h3 := go _ hgo
        exact ⟨h3.1, h3.2.1, h3.2.2.1, h3.2.2.2.1, h3.2.2.2.2⟩

/-- The cache-threading traversal, run on a store whose descendant cache
is everywhere coherent, returns exactly the cache-free recomputation and
leaves the cache coherent. -/
theorem getAllChildren_descend : ∀ (fuel : Nat) {s : Store} {id : NodeId}
    {L : List TreeItem} {s' : Store}, CacheOK s →
    getAllChildren fuel s id = some (L, s') →
    (∃ f, descend s.childrenMap f id = some L) ∧ CacheOK s' := by
  intro fuel
  induction fuel with
  | zero =>
    intro s id L s' hok h
    simp only [getAllChildren] at h
    cases hc : alookup s.allChildrenCache id with
    | some r =>
      simp only [hc] at h
      simp at h
      obtain ⟨hL, hs⟩ := h
      subst hL
      subst hs
      exact ⟨hok _ _ hc, hok⟩
    | none => simp [hc] at h
  | succ f ih =>
    have go : ∀ (cm : List (NodeId × List TreeItem)) (cs : List TreeItem)
        {s : Store} {L : List TreeItem} {s' : Store},
        s.childrenMap = cm → CacheOK s →
        getAllChildrenGo (getAllChildren f) s cs = some (L, s') →
        (∃ g, descendList (descend cm g) cs = some L) ∧ CacheOK s' ∧
          s'.childrenMap = cm := by
      intro cm cs
      induction cs with
      | nil =>
        intro s L s' hcm hok h
        simp [getAllChildrenGo] at h
        obtain ⟨hL, hs⟩ := h
        subst hL
        subst hs
        exact ⟨⟨0, by simp [descendList]⟩, hok, hcm⟩
      | cons c cs ihc =>
        intro s L s' hcm hok h
        simp only [getAllChildrenGo] at h
        cases h1 : getAllChildren f s c.id with
        | none => simp [h1] at h
        | some p =>
          obtain ⟨sub, s1⟩ := p
          simp only [h1] at h
          cases h2 : getAllChildrenGo (getAllChildren f) s1 cs with
          | none => simp [h2] at h
          | some q =>
            obtain ⟨rest, s2⟩ := q
            simp only [h2] at h
            simp at h
            obtain ⟨hL, hs2⟩ := h
            have hpres := getAllChildren_preserves f h1
            have hsub := ih hok h1
            have h1cm : s1.childrenMap = cm := by rw [hpres.2.2.1, hcm]
            have hrest := ihc h1cm hsub.2 h2
            obtain ⟨g1, hg1⟩ := hsub.1
            obtain ⟨g2, hg2⟩ := hrest.1
            rw [hcm] at hg1
            refine ⟨⟨max g1 g2, ?_⟩, by rw [← hs2]; exact hrest.2.1,
              by rw [← hs2]; exact hrest.2.2⟩
            have hg1' := descend_mono (le_max_left g1 g2) hg1
            have hg2' : descendList (descend cm (max g1 g2)) cs = some rest :=
              descendList_mono (fun a M hM => descend_mono (le_max_right g1 g2) hM)
                cs rest hg2
            rw [← hL]
            simp [descendList, hg1', hg2']
    intro s id L s' hok h
    simp only [getAllChildren] at h
    cases hc : alookup s.allChildrenCache id with
    | some r =>
      simp only [hc] at h
      simp at h
      obtain ⟨hL, hs⟩ := h
      subst hL
      subst hs
      exact ⟨hok _ _ hc, hok⟩
    | none =>
      simp only [hc] at h
      cases hgo : getAllChildrenGo (getAllChildren f) s (getChildren s id) with
      | none => simp [hgo] at h
      | some p =>
        obtain ⟨res, s1⟩ := p
        simp only [hgo] at h
        simp at h
        obtain ⟨hL, hs'⟩ := h
        subst hL
        have hgol := go s.childrenMap (getChildren s id) rfl hok hgo
        obtain ⟨⟨g, hg⟩, hok1, hcm1⟩ := hgol
        have hdes : descend s.childrenMap (g + 1) id = some res := by
          simp only [descend]
          have : childrenOf s.childrenMap id = getChildren s id := rfl
          rw [this]
          exact hg
        refine ⟨⟨g + 1, hdes⟩, ?_⟩
        subst hs'
        intro k v hkv
        simp only at hkv
        by_cases hk : k = id
        · subst hk
          rw [alookup_aset_self] at hkv
          obtain rfl : v = res := by simpa using hkv.symm
          exact ⟨g + 1, by simpa [hcm1] using hdes⟩
        · rw [alookup_aset_ne _ _ hk] at hkv
          obtain ⟨g', hg'⟩ := hok1 k v hkv
          exact ⟨g', by simpa [hcm1] using hg'⟩

/-!
## The ancestor-chain walk
-/

theorem parentLoop_isChain {pm : List (NodeId × TreeItem)} :
    ∀ {f : Nat} {cur : TreeItem} {L : List TreeItem},
      parentLoop pm f cur = some L → IsChain pm cur L := by
  intro f
  induction f with
  | zero =>
    intro cur L h
    simp only [parentLoop] at h
    cases hp : cur.parent with
    | none =>
      simp [hp] at h
      subst h
      exact IsChain.rootStop hp
    | some q =>
      simp only [hp] at h
      cases hl : alookup pm cur.id with
      | none =>
        simp [hl] at h
        subst h
        exact IsChain.missStop hp hl
      | some par => simp [hl] at h
  | succ f ih =>
    intro cur L h
    simp only [parentLoop] at h
    cases hp : cur.parent with
    | none =>
      simp [hp] at h
      subst h
      exact IsChain.rootStop hp
    | some q =>
      simp only [hp] at h
      cases hl : alookup pm cur.id with
      | none =>
        simp [hl] at h
        subst h
        exact IsChain.missStop hp hl
      | some par =>
        simp only [hl] at h
        cases hpl : parentLoop pm f par with
        | none => simp [hpl] at h
        | some L' =>
          simp [hpl] at h
          subst h
          exact IsChain.step hp hl (ih hpl)

theorem isChain_rank {pm : List (NodeId × TreeItem)} {rk : NodeId → Nat}
    (hrk : ∀ e ∈ pm, rk (e.2.id) < rk e.1) :
    ∀ {cur : TreeItem} {L : List TreeItem}, IsChain pm cur L →
      ∀ r ∈ L, rk r.id < rk cur.id := by
  intro cur L h
  induction h with
  | rootStop => simp
  | missStop => simp
  | step hp hl hch ih =>
    intro r hr
    have hstep : rk _ < rk _ := hrk _ (alookup_mem hl)
    rcases List.mem_cons.mp hr with rfl | hr2
    · exact hstep
    · exact lt_trans (ih r hr2) hstep

theorem isChain_last {pm : List (NodeId × TreeItem)} :
    ∀ {cur : TreeItem} {L : List TreeItem}, IsChain pm cur L → L ≠ [] →
      ∃ lst, L.getLast? = some lst ∧
        (lst.parent = none ∨ alookup pm lst.id = none) := by
  intro cur L h
  induction h with
  | rootStop => intro hne; simp at hne
  | missStop => intro hne; simp at hne
  | @step cur par q L' hp hl hch ih =>
    intro _
    cases L' with
    | nil =>
      refine ⟨par, by simp, ?_⟩
      cases hch with
      | rootStop h0 => exact Or.inl h0
      | missStop h0 h1 => exact Or.inr h1
    | cons x xs =>
      obtain ⟨lst, hlst, hprop⟩ := ih (by simp)
      refine ⟨lst, ?_, hprop⟩
      rw [List.getLast?_cons_cons]
      exact hlst

theorem parentLoop_term {pm : List (NodeId × TreeItem)} {rk : NodeId → Nat}
    (hrk : ∀ e ∈ pm, rk (e.2.id) < rk e.1) :
    ∀ (n : Nat) (cur : TreeItem), rk cur.id ≤ n → parentLoop pm n cur ≠ none := by
  intro n
  induction n with
  | zero =>
    intro cur hle
    simp only [parentLoop]
    cases hp : cur.parent with
    | none => simp
    | some q =>
      simp only
      cases hl : alookup pm cur.id with
      | none => simp
      | some par =>
        exfalso
        have h3 : rk par.id < rk cur.id := hrk _ (alookup_mem hl)
        omega
  | succ n ih =>
    intro cur hle
    simp only [parentLoop]
    cases hp : cur.parent with
    | none => simp
    | some q =>
      simp only
      cases hl : alookup pm cur.id with
      | none => simp
      | some par =>
        have h3 : rk par.id < rk cur.id := hrk _ (alookup_mem hl)
        have h4 := ih par (by omega)
        cases hpl : parentLoop pm n par with
        | none => exact absurd hpl h4
        | some L => simp [hpl]

/-!
## Reachability and the cache-free recomputation
-/

theorem reach_prepend {cm : List (NodeId × List TreeItem)} {id : NodeId}
    {c r : TreeItem} (hc : c ∈ childrenOf cm id) (h : Reach cm c.id r) :
    Reach cm id r := by
  induction h with
  | direct hd => exact Reach.step (Reach.direct hc) hd
  | step hr hd ih => exact Reach.step ih hd

theorem reach_to_reachI {cm : List (NodeId × List TreeItem)} :
    ∀ {a : NodeId} {r : TreeItem}, Reach cm a r → ReachI cm a r.id := by
  intro a r h
  induction h with
  | direct hd => exact ReachI.single ⟨_, hd, rfl⟩
  | step hr hd ih => exact ReachI.snoc ih ⟨_, hd, rfl⟩

theorem descendList_extract {d : NodeId → Option (List TreeItem)} :
    ∀ {cs L : List TreeItem}, descendList d cs = some L → ∀ c ∈ cs,
      c ∈ L ∧ ∃ M, d c.id = some M ∧ ∀ x ∈ M, x ∈ L := by
  intro cs
  induction cs with
  | nil => intro L h c hc; simp at hc
  | cons c0 cs ih =>
    intro L h c hc
    simp only [descendList] at h
    cases h1 : d c0.id with
    | none => simp [h1] at h
    | some sub =>
      cases h2 : descendList d cs with
      | none => simp [h1, h2] at h
      | some rest =>
        simp [h1, h2] at h
        subst h
        rcases List.mem_cons.mp hc with rfl | hc2
        · exact ⟨by simp, sub, h1, fun x hx => by simp [hx]⟩
        · obtain ⟨hmem, M, hM, hsubset⟩ := ih h2 c hc2
          exact ⟨by simp [hmem], M, hM, fun x hx => by simp [hsubset x hx]⟩

theorem descend_mem {cm : List (NodeId × List TreeItem)} :
    ∀ {f : Nat} {id : NodeId} {L : List TreeItem}, descend cm f id = some L →
      ∀ r ∈ L, Reach cm id r := by
  intro f
  induction f with
  | zero => intro id L h; simp [descend] at h
  | succ f ih =>
    intro id L h r hr
    simp only [descend] at h
    have aux : ∀ (cs L' : List TreeItem),
        descendList (descend cm f) cs = some L' →
        (∀ c ∈ cs, c ∈ childrenOf cm id) → ∀ r' ∈ L', Reach cm id r' := by
      intro cs
      induction cs with
      | nil =>
        intro L' h' hsub r' hr'
        simp [descendList] at h'
        subst h'
        simp at hr'
      | cons c cs ihc =>
        intro L' h' hsub r' hr'
        simp only [descendList] at h'
        cases h1 : descend cm f c.id with
        | none => simp [h1] at h'
        | some sub =>
          cases h2 : descendList (descend cm f) cs with
          | none => simp [h1, h2] at h'
          | some rest =>
            simp [h1, h2] at h'
            subst h'
            rcases List.mem_cons.mp hr' with h3 | h3
            · rw [h3]
              exact Reach.direct (hsub c (by simp))
            · rcases List.mem_append.mp h3 with h4 | h4
              · exact reach_prepend (hsub c (by simp)) (ih h1 r' h4)
              · exact ihc rest h2 (fun c' hc' => hsub c' (by simp [hc'])) r' h4
    exact aux _ L h (fun c hc => hc) r hr

theorem descend_reach_sub {cm : List (NodeId × List TreeItem)} {f : Nat}
    {id : NodeId} {L : List TreeItem} (h : descend cm f id = some L)
    {r : TreeItem} (hr : Reach cm id r) :
    r ∈ L ∧ ∃ g M, descend cm g r.id = some M ∧ ∀ x ∈ M, x ∈ L := by
  induction hr with
  | direct hd =>
    rename_i c
    cases f with
    | zero => simp [descend] at h
    | succ f' =>
      simp only [descend] at h
      obtain ⟨hmem, M, hM, hsub⟩ := descendList_extract h c hd
      exact ⟨hmem, f', M, hM, hsub⟩
  | step hrc hd ih =>
    rename_i c d
    obtain ⟨hcL, g, M, hgM, hML⟩ := ih
    cases g with
    | zero => simp [descend] at hgM
    | succ g' =>
      simp only [descend] at hgM
      obtain ⟨hdM, Md, hMd, hMdM⟩ := descendList_extract hgM d hd
      exact ⟨hML d hdM, g', Md, hMd, fun x hx => hML x (hMdM x hx)⟩

/-!
## Uniqueness of the pre-order listing

Under the structural hypotheses that actually hold of a well-formed
children table — every record id occurs in the children list of at most
one parent (functional parenthood), every children list has no duplicate
ids, and a rank function decreases along child edges (acyclicity) — the
pre-order listing contains every id at most once.
-/

theorem edge_pIdx {cm : List (NodeId × List TreeItem)} {pIdx : NodeId → Option NodeId}
    (hfun : ∀ p l, alookup cm p = some l → ∀ c ∈ l, pIdx c.id = some p)
    {p q : NodeId} (h : EdgeI cm p q) : pIdx q = some p := by
  obtain ⟨c, hc, rfl⟩ := h
  unfold childrenOf at hc
  cases hl : alookup cm p with
  | none => rw [hl] at hc; simp at hc
  | some l =>
    rw [hl] at hc
    simp at hc
    exact hfun p l hl c hc

theorem edge_rank {cm : List (NodeId × List TreeItem)} {rk : NodeId → Nat}
    (hrk : ∀ p l, alookup cm p = some l → ∀ c ∈ l, rk c.id < rk p)
    {p q : NodeId} (h : EdgeI cm p q) : rk q < rk p := by
  obtain ⟨c, hc, rfl⟩ := h
  unfold childrenOf at hc
  cases hl : alookup cm p with
  | none => rw [hl] at hc; simp at hc
  | some l =>
    rw [hl] at hc
    simp at hc
    exact hrk p l hl c hc

theorem reachI_rank {cm : List (NodeId × List TreeItem)} {rk : NodeId → Nat}
    (hrk : ∀ p l, alookup cm p = some l → ∀ c ∈ l, rk c.id < rk p) :
    ∀ {a b : NodeId}, ReachI cm a b → rk b < rk a := by
  intro a b h
  induction h with
  | single e => exact edge_rank hrk e
  | snoc hr e ih => exact lt_trans (edge_rank hrk e) ih

/-- In a functional-parenthood graph, two ancestors of the same id are
comparable. -/
theorem reachI_chain {cm : List (NodeId × List TreeItem)} {pIdx : NodeId → Option NodeId}
    (hfun : ∀ p l, alookup cm p = some l → ∀ c ∈ l, pIdx c.id = some p) :
    ∀ {a x : NodeId}, ReachI cm a x → ∀ {b : NodeId}, ReachI cm b x →
      a = b ∨ ReachI cm a b ∨ ReachI cm b a := by
  intro a x h1
  induction h1 with
  | single e1 =>
    intro b h2
    cases h2 with
    | single e2 =>
      left
      have ha := edge_pIdx hfun e1
      have hb := edge_pIdx hfun e2
      rw [ha] at hb
      exact Option.some.inj hb
    | snoc hr e2 =>
      right; right
      have ha := edge_pIdx hfun e1
      have hm := edge_pIdx hfun e2
      rw [ha] at hm
      obtain rfl := Option.some.inj hm
      exact hr
  | snoc hr e1 ih =>
    intro b h2
    cases h2 with
    | single e2 =>
      right; left
      have ha := edge_pIdx hfun e1
      have hb := edge_pIdx hfun e2
      rw [hb] at ha
      obtain rfl := Option.some.inj ha
      exact hr
    | snoc hr2 e2 =>
      have ha := edge_pIdx hfun e1
      have hb := edge_pIdx hfun e2
      rw [ha] at hb
      obtain rfl := Option.some.inj hb
      exact ih hr2

/-- A sibling cannot be an ancestor of its sibling. -/
theorem reachI_sibling_absurd {cm : List (NodeId × List TreeItem)}
    {pIdx : NodeId → Option NodeId} {rk : NodeId → Nat}
    (hfun : ∀ p l, alookup cm p = some l → ∀ c ∈ l, pIdx c.id = some p)
    (hrk : ∀ p l, alookup cm p = some l → ∀ c ∈ l, rk c.id < rk p)
    {q a b : NodeId} (ea : EdgeI cm q a) (eb : EdgeI cm q b)
    (h : ReachI cm a b) : False := by
  cases h with
  | single e =>
    have h1 := edge_pIdx hfun e
    have h2 := edge_pIdx hfun eb
    rw [h1] at h2
    obtain rfl := Option.some.inj h2
    exact absurd (edge_rank hrk ea) (lt_irrefl _)
  | snoc hr e =>
    rename_i m
    have h1 := edge_pIdx hfun e
    have h2 := edge_pIdx hfun eb
    rw [h1] at h2
    have hmq : m = q := Option.some.inj h2
    have hlt1 : rk q < rk a := by rw [← hmq]; exact reachI_rank hrk hr
    have hlt2 : rk a < rk q := edge_rank hrk ea
    omega

theorem descend_nodup {cm : List (NodeId × List TreeItem)}
    {pIdx : NodeId → Option NodeId} {rk : NodeId → Nat}
    (hfun : ∀ p l, alookup cm p = some l → ∀ c ∈ l, pIdx c.id = some p)
    (hrk : ∀ p l, alookup cm p = some l → ∀ c ∈ l, rk c.id < rk p)
    (hnd : ∀ p l, alookup cm p = some l → (l.map TreeItem.id).Nodup) :
    ∀ {f : Nat} {id : NodeId} {L : List TreeItem},
      descend cm f id = some L → (L.map TreeItem.id).Nodup := by
  intro f
  induction f with
  | zero => intro id L h; simp [descend] at h
  | succ f ih =>
    intro id L h
    simp only [descend] at h
    have hkids : ∀ c ∈ childrenOf cm id, EdgeI cm id c.id :=
      fun c hc => ⟨c, hc, rfl⟩
    have hkidsnd : ((childrenOf cm id).map TreeItem.id).Nodup := by
      unfold childrenOf
      cases hl : alookup cm id with
      | none => simp
      | some l => simpa using hnd id l hl
    have aux : ∀ (cs : List TreeItem), ((cs.map TreeItem.id).Nodup) →
        (∀ c ∈ cs, EdgeI cm id c.id) → ∀ (L' : List TreeItem),
        descendList (descend cm f) cs = some L' →
        (L'.map TreeItem.id).Nodup ∧
          ∀ r ∈ L', ∃ c ∈ cs, r.id = c.id ∨ ReachI cm c.id r.id := by
      intro cs
      induction cs with
      | nil =>
        intro _ _ L' h'
        simp [descendList] at h'
        subst h'
        simp
      | cons c cs ihc =>
        intro hndcs hedges L' h'
        simp only [descendList] at h'
        cases h1 : descend cm f c.id with
        | none => simp [h1] at h'
        | some sub =>
          cases h2 : descendList (descend cm f) cs with
          | none => simp [h1, h2] at h'
          | some rest =>
            simp [h1, h2] at h'
            subst h'
            have hsubreach : ∀ r ∈ sub, ReachI cm c.id r.id :=
              fun r hr => reach_to_reachI (descend_mem h1 r hr)
            have hsubnd : (sub.map TreeItem.id).Nodup := ih h1
            have hcEdge : EdgeI cm id c.id := hedges c (by simp)
            have hcsEdges : ∀ c' ∈ cs, EdgeI cm id c'.id :=
              fun c' hc' => hedges c' (by simp [hc'])
            have hndcs2 : (c.id :: cs.map TreeItem.id).Nodup := hndcs
            have hnd1 : c.id ∉ cs.map TreeItem.id := (List.nodup_cons.mp hndcs2).1
            have hnd2 : (cs.map TreeItem.id).Nodup := (List.nodup_cons.mp hndcs2).2
            obtain ⟨hrestnd, hrestchar⟩ := ihc hnd2 hcsEdges rest h2
            constructor
            · simp only [List.map_cons, List.map_append]
              rw [List.nodup_cons]
              constructor
              · intro hmem
                rcases List.mem_append.mp hmem with hm | hm
                · obtain ⟨r, hr, hrid⟩ := List.mem_map.mp hm
                  have := reachI_rank hrk (hsubreach r hr)
                  rw [hrid] at this
                  exact absurd this (lt_irrefl _)
                · obtain ⟨r, hr, hrid⟩ := List.mem_map.mp hm
                  obtain ⟨c', hc', hcase⟩ := hrestchar r hr
                  rcases hcase with heq | hreach
                  · apply hnd1
                    rw [← hrid, heq]
                    exact List.mem_map.mpr ⟨c', hc', rfl⟩
                  · rw [hrid] at hreach
                    exact reachI_sibling_absurd hfun hrk (hcsEdges c' hc') hcEdge hreach
              · rw [List.nodup_append]
                refine ⟨hsubnd, hrestnd, ?_⟩
                intro x hx hx2
                obtain ⟨r, hr, hrid⟩ := List.mem_map.mp hx
                obtain ⟨y, hy, hyid⟩ := List.mem_map.mp hx2
                obtain ⟨c', hc', hcase⟩ := hrestchar y hy
                have hrx : ReachI cm c.id x := by
                  rw [← hrid]; exact hsubreach r hr
                rcases hcase with heq | hreach
                · have : ReachI cm c.id c'.id := by
                    rw [← heq, hyid]; exact hrx
                  exact reachI_sibling_absurd hfun hrk hcEdge (hcsEdges c' hc') this
                · have hry : ReachI cm c'.id x := by
                    rw [← hyid]; exact hreach
                  rcases reachI_chain hfun hrx hry with heq | hr1 | hr1
                  · apply hnd1
                    rw [heq]
                    exact List.mem_map.mpr ⟨c', hc', rfl⟩
                  · exact reachI_sibling_absurd hfun hrk hcEdge (hcsEdges c' hc') hr1
                  · exact reachI_sibling_absurd hfun hrk (hcsEdges c' hc') hcEdge hr1
            · intro r hr
              rcases List.mem_cons.mp hr with heq | hmem
              · exact ⟨c, by simp, Or.inl (by rw [heq])⟩
              · rcases List.mem_append.mp hmem with hm | hm
                · exact ⟨c, by simp, Or.inr (hsubreach r hm)⟩
                · obtain ⟨c', hc', hcase⟩ := hrestchar r hm
                  exact ⟨c', by simp [hc'], hcase⟩
    exact (aux (childrenOf cm id) hkidsnd hkids L h).1

/-!
## What cache invalidation does to the store
-/

theorem invalidateParentCaches_preserves : ∀ (fuel : Nat) {s : Store} {id : NodeId}
    {s' : Store}, invalidateParentCaches fuel s id = some s' →
    s'.items = s.items ∧ s'.itemsMap = s.itemsMap ∧ s'.childrenMap = s.childrenMap ∧
      s'.parentMap = s.parentMap := by
  intro fuel
  induction fuel with
  | zero =>
    intro s id s' h
    simp only [invalidateParentCaches] at h
    cases hp : alookup s.parentMap id with
    | none =>
      simp [hp] at h
      subst h
      exact ⟨rfl, rfl, rfl, rfl⟩
    | some parent => simp [hp] at h
  | succ f ih =>
    intro s id s' h
    simp only [invalidateParentCaches] at h
    cases hp : alookup s.parentMap id with
    | none =>
      simp [hp] at h
      subst h
      exact ⟨rfl, rfl, rfl, rfl⟩
    | some parent =>
      simp only [hp] at h
      have h5 := ih h
      exact ⟨h5.1, h5.2.1, h5.2.2.1, h5.2.2.2⟩

theorem invalidateParentCaches_cacheSub : ∀ (fuel : Nat) {s : Store} {id : NodeId}
    {s' : Store}, invalidateParentCaches fuel s id = some s' →
    (∀ k v, alookup s'.allChildrenCache k = some v →
        alookup s.allChildrenCache k = some v) ∧
    (∀ k v, alookup s'.parentChainCache k = some v →
        alookup s.parentChainCache k = some v) := by
  intro fuel
  induction fuel with
  | zero =>
    intro s id s' h
    simp only [invalidateParentCaches] at h
    cases hp : alookup s.parentMap id with
    | none =>
      simp [hp] at h
      subst h
      exact ⟨fun k v hv => hv, fun k v hv => hv⟩
    | some parent => simp [hp] at h
  | succ f ih =>
    intro s id s' h
    simp only [invalidateParentCaches] at h
    cases hp : alookup s.parentMap id with
    | none =>
      simp [hp] at h
      subst h
      exact ⟨fun k v hv => hv, fun k v hv => hv⟩
    | some parent =>
      simp only [hp] at h
      obtain ⟨h1, h2⟩ := ih h
      exact ⟨fun k v hv => alookup_adel_sub _ _ _ (h1 k v hv),
             fun k v hv => alookup_adel_sub _ _ _ (h2 k v hv)⟩

theorem invalidateCache_preserves : ∀ (ids : List NodeId) (fuel : Nat) {s : Store}
    {s' : Store}, invalidateCache fuel s ids = some s' →
    s'.items = s.items ∧ s'.itemsMap = s.itemsMap ∧ s'.childrenMap = s.childrenMap ∧
      s'.parentMap = s.parentMap := by
  intro ids
  induction ids with
  | nil =>
    intro fuel s s' h
    simp [invalidateCache] at h
    subst h
    exact ⟨rfl, rfl, rfl, rfl⟩
  | cons id rest ih =>
    intro fuel s s' h
    simp only [invalidateCache] at h
    cases hp : invalidateParentCaches fuel
        { s with allChildrenCache := adel s.allChildrenCache id,
                 parentChainCache := adel s.parentChainCache id } id with
    | none => simp [hp] at h
    | some s1 =>
      simp only [hp] at h
      obtain ⟨e1, e2, e3, e4⟩ := ih fuel h
      obtain ⟨f1, f2, f3, f4⟩ := invalidateParentCaches_preserves fuel hp
      exact ⟨e1.trans f1, e2.trans f2, e3.trans f3, e4.trans f4⟩

theorem invalidateCache_cacheSub : ∀ (ids : List NodeId) (fuel : Nat) {s : Store}
    {s' : Store}, invalidateCache fuel s ids = some s' →
    (∀ k v, alookup s'.allChildrenCache k = some v →
        alookup s.allChildrenCache k = some v) ∧
    (∀ k v, alookup s'.parentChainCache k = some v →
        alookup s.parentChainCache k = some v) := by
  intro ids
  induction ids with
  | nil =>
    intro fuel s s' h
    simp [invalidateCache] at h
    subst h
    exact ⟨fun k v hv => hv, fun k v hv => hv⟩
  | cons id rest ih =>
    intro fuel s s' h
    simp only [invalidateCache] at h
    cases hp : invalidateParentCaches fuel
        { s with allChildrenCache := adel s.allChildrenCache id,
                 parentChainCache := adel s.parentChainCache id } id with
    | none => simp [hp] at h
    | some s1 =>
      simp only [hp] at h
      obtain ⟨e1, e2⟩ := ih fuel h
      obtain ⟨f1, f2⟩ := invalidateParentCaches_cacheSub fuel hp
      exact ⟨fun k v hv => alookup_adel_sub _ _ _ (f1 k v (e1 k v hv)),
             fun k v hv => alookup_adel_sub _ _ _ (f2 k v (e2 k v hv))⟩

theorem invalidateCache_deleted : ∀ (ids : List NodeId) (fuel : Nat) {s : Store}
    {s' : Store}, invalidateCache fuel s ids = some s' → ∀ k ∈ ids,
      alookup s'.allChildrenCache k = none ∧ alookup s'.parentChainCache k = none := by
  intro ids
  induction ids with
  | nil => intro fuel s s' h k hk; simp at hk
  | cons id rest ih =>
    intro fuel s s' h k hk
    simp only [invalidateCache] at h
    cases hp : invalidateParentCaches fuel
        { s with allChildrenCache := adel s.allChildrenCache id,
                 parentChainCache := adel s.parentChainCache id } id with
    | none => simp [hp] at h
    | some s1 =>
      simp only [hp] at h
      rcases List.mem_cons.mp hk with rfl | hk2
      · obtain ⟨f1, f2⟩ := invalidateParentCaches_cacheSub fuel hp
        obtain ⟨e1, e2⟩ := invalidateCache_cacheSub rest fuel h
        constructor
        · cases hv : alookup s'.allChildrenCache k with
          | none => rfl
          | some v =>
            have := f1 k v (e1 k v hv)
            simp only at this
            rw [alookup_adel_self] at this
            cases this
        · cases hv : alookup s'.parentChainCache k with
          | none => rfl
          | some v =>
            have := f2 k v (e2 k v hv)
            simp only at this
            rw [alookup_adel_self] at this
            cases this
      · exact ih fuel h k hk2

/-- Invalidation never creates a cache entry: a key with no entry before
still has none afterwards. -/
theorem invalidateCache_none : ∀ (ids : List NodeId) (fuel : Nat) {s : Store}
    {s' : Store}, invalidateCache fuel s ids = some s' → ∀ k,
      (alookup s.allChildrenCache k = none → alookup s'.allChildrenCache k = none) ∧
      (alookup s.parentChainCache k = none → alookup s'.parentChainCache k = none) := by
  intro ids fuel s s' h k
  obtain ⟨e1, e2⟩ := invalidateCache_cacheSub ids fuel h
  constructor
  · intro hnone
    cases hv : alookup s'.allChildrenCache k with
    | none => rfl
    | some v => rw [e1 k v hv] at hnone; cases hnone
  · intro hnone
    cases hv : alookup s'.parentChainCache k with
    | none => rfl
    | some v => rw [e2 k v hv] at hnone; cases hnone

/-!
## Construction facts
-/

theorem buildPassOne_items (s : Store) : (buildPassOne s).items = s.items := by
  unfold buildPassOne
  have aux : ∀ (l : List TreeItem) (t : Store),
      (l.foldl (fun s item =>
        let s := { s with itemsMap := aset s.itemsMap item.id item }
        if (alookup s.childrenMap item.id).isSome then s
        else { s with childrenMap := aset s.childrenMap item.id [] }) t).items
        = t.items := by
    intro l
    induction l with
    | nil => intro t; rfl
    | cons x xs ih =>
      intro t
      rw [List.foldl_cons, ih]
      dsimp only
      split <;> rfl
  exact aux s.items s

theorem linkParent_items (s : Store) (item : TreeItem) :
    (linkParent s item).items = s.items := by
  unfold linkParent
  cases item.parent with
  | none => rfl
  | some pid =>
    dsimp only
    cases alookup s.itemsMap pid with
    | none => rfl
    | some parent =>
      dsimp only
      cases alookup s.childrenMap pid <;> rfl

theorem foldl_linkParent_items : ∀ (l : List TreeItem) (t : Store),
    (l.foldl linkParent t).items = t.items := by
  intro l
  induction l with
  | nil => intro t; rfl
  | cons x xs ih =>
    intro t
    rw [List.foldl_cons, ih, linkParent_items]

/-- Construction never drops records from the live sequence. -/
theorem newStore_items (items : List TreeItem) : getAll (newStore items) = items := by
  unfold newStore buildIndexes getAll
  dsimp only
  rw [foldl_linkParent_items, buildPassOne_items]

/-- Construction starts with both caches empty. -/
theorem newStore_caches (items : List TreeItem) :
    (newStore items).allChildrenCache = [] ∧ (newStore items).parentChainCache = [] := by
  unfold newStore buildIndexes
  dsimp only
  have aux1 : ∀ (l : List TreeItem) (t : Store),
      ((l.foldl (fun s item =>
        let s := { s with itemsMap := aset s.itemsMap item.id item }
        if (alookup s.childrenMap item.id).isSome then s
        else { s with childrenMap := aset s.childrenMap item.id [] }) t).allChildrenCache
        = t.allChildrenCache) ∧
      ((l.foldl (fun s item =>
        let s := { s with itemsMap := aset s.itemsMap item.id item }
        if (alookup s.childrenMap item.id).isSome then s
        else { s with childrenMap := aset s.childrenMap item.id [] }) t).parentChainCache
        = t.parentChainCache) := by
    intro l
    induction l with
    | nil => intro t; exact ⟨rfl, rfl⟩
    | cons x xs ih =>
      intro t
      rw [List.foldl_cons]
      refine ⟨((ih _).1).trans ?_, ((ih _).2).trans ?_⟩ <;>
        (dsimp only; split <;> rfl)
  have aux2 : ∀ (l : List TreeItem) (t : Store),
      ((l.foldl linkParent t).allChildrenCache = t.allChildrenCache) ∧
      ((l.foldl linkParent t).parentChainCache = t.parentChainCache) := by
    intro l
    induction l with
    | nil => intro t; exact ⟨rfl, rfl⟩
    | cons x xs ih =>
      intro t
      rw [List.foldl_cons]
      have hx : ((linkParent t x).allChildrenCache = t.allChildrenCache) ∧
          ((linkParent t x).parentChainCache = t.parentChainCache) := by
        unfold linkParent
        cases x.parent with
        | none => exact ⟨rfl, rfl⟩
        | some pid =>
          dsimp only
          cases alookup t.itemsMap pid with
          | none => exact ⟨rfl, rfl⟩
          | some parent =>
            dsimp only
            cases alookup t.childrenMap pid <;> exact ⟨rfl, rfl⟩
      exact ⟨((ih _).1).trans hx.1, ((ih _).2).trans hx.2⟩
  unfold buildPassOne
  exact ⟨((aux2 _ _).1).trans (aux1 _ _).1, ((aux2 _ _).2).trans (aux1 _ _).2⟩

/-- C6 counterexample: constructing with two records sharing id 1 keeps
both in the live sequence, so `getAll()` has 2 entries where the claim
predicts 2 - 1 = 1. -/
theorem C6_uniqueness_counterexample :
    (getAll (newStore [⟨NodeId.num 1, none, "a"⟩, ⟨NodeId.num 1, none, "b"⟩])).length = 2 ∧
    (getAll (newStore [⟨NodeId.num 1, none, "a"⟩, ⟨NodeId.num 1, none, "b"⟩])).length ≠ 1 := by
  constructor
  · rw [newStore_items]
    rfl
  · rw [newStore_items]
    decide

/-- C6 (amended): construction never drops duplicate-id records from the
live sequence: `getAll()` on a freshly constructed store returns exactly
the input sequence, with all N entries; uniqueness of ids is enforced
only by `addItem`, which rejects an existing id. -/
theorem C6_uniqueness_amended (items : List TreeItem) :
    getAll (newStore items) = items ∧ (getAll (newStore items)).length = items.length := by
  exact ⟨newStore_items items, by rw [newStore_items]⟩

/-- C7: `addItem` with an already-present id is a no-op: the store is
returned entirely unchanged (so every observable — `getAll`, `getItem`,
children lists and both caches — is as before), and no failure occurs. -/
theorem C7_duplicate_addItem_noop (fuel : Nat) (s : Store) (item : TreeItem)
    (h : (alookup s.itemsMap item.id).isSome = true) :
    addItem fuel s item = some s := by
  unfold addItem
  simp [h]

/-- C7 witness: adding a second record with id 1 to a one-record store
returns the store unchanged. -/
theorem C7_duplicate_addItem_noop_witness :
    (alookup (newStore [⟨NodeId.num 1, none, "Root"⟩]).itemsMap (NodeId.num 1)).isSome = true ∧
    addItem 5 (newStore [⟨NodeId.num 1, none, "Root"⟩]) ⟨NodeId.num 1, none, "Dup"⟩ =
      some (newStore [⟨NodeId.num 1, none, "Root"⟩]) :=
  ⟨by decide, C7_duplicate_addItem_noop 5 (newStore [⟨NodeId.num 1, none, "Root"⟩])
    ⟨NodeId.num 1, none, "Dup"⟩ (by decide)⟩

/-!
## Termination on acyclic data, divergence on the cycle
-/

theorem getAllChildren_term {cm : List (NodeId × List TreeItem)} {rkC : NodeId → Nat}
    (hrk : ∀ e ∈ cm, ∀ c ∈ e.2, rkC c.id < rkC e.1) :
    ∀ (n : Nat) (s : Store) (id : NodeId), s.childrenMap = cm → rkC id < n →
      getAllChildren n s id ≠ none := by
  intro n
  induction n with
  | zero => intro s id _ h; omega
  | succ f ih =>
    intro s id hcm hlt
    simp only [getAllChildren]
    cases hc : alookup s.allChildrenCache id with
    | some r => simp [hc]
    | none =>
      simp only [hc]
      have hkids : ∀ c ∈ getChildren s id, rkC c.id < rkC id := by
        intro c hcmem
        unfold getChildren at hcmem
        cases hl : alookup s.childrenMap id with
        | none => rw [hl] at hcmem; simp at hcmem
        | some l =>
          rw [hl] at hcmem
          simp at hcmem
          rw [hcm] at hl
          exact hrk _ (alookup_mem hl) c hcmem
      have hgo : ∀ (cs : List TreeItem), (∀ c ∈ cs, rkC c.id < rkC id) →
          ∀ (t : Store), t.childrenMap = cm →
          getAllChildrenGo (getAllChildren f) t cs ≠ none := by
        intro cs
        induction cs with
        | nil => intro _ t _; simp [getAllChildrenGo]
        | cons c cs ihc =>
          intro hcs t htcm
          simp only [getAllChildrenGo]
          have h1 : getAllChildren f t c.id ≠ none := by
            have hcc := hcs c (by simp)
            exact ih t c.id htcm (by omega)
          cases h1' : getAllChildren f t c.id with
          | none => exact absurd h1' h1
          | some p =>
            obtain ⟨sub, s1⟩ := p
            simp only [h1']
            have hs1cm : s1.childrenMap = cm := by
              have hpres := getAllChildren_preserves f h1'
              rw [hpres.2.2.1, htcm]
            have h2 := ihc (fun c' hc' => hcs c' (by simp [hc'])) s1 hs1cm
            cases h2' : getAllChildrenGo (getAllChildren f) s1 cs with
            | none => exact absurd h2' h2
            | some q => simp [h2']
      have hne := hgo (getChildren s id) hkids s hcm
      cases hg : getAllChildrenGo (getAllChildren f) s (getChildren s id) with
      | none => exact absurd hg hne
      | some p =>
        obtain ⟨res, s1⟩ := p
        simp [hg]

def cycA : TreeItem := ⟨NodeId.num 1, some (NodeId.num 2), ""⟩

def cycB : TreeItem := ⟨NodeId.num 2, some (NodeId.num 1), ""⟩

/-- The store of the test "should handle circular reference prevention":
two records whose parent references form a cycle. -/
def cycStore : Store := newStore [cycA, cycB]

theorem cyc_parentMap :
    cycStore.parentMap = [(NodeId.num 1, cycB), (NodeId.num 2, cycA)] := by decide

theorem cyc_parentLoop_none (n : Nat) :
    parentLoop [(NodeId.num 1, cycB), (NodeId.num 2, cycA)] n cycA = none ∧
    parentLoop [(NodeId.num 1, cycB), (NodeId.num 2, cycA)] n cycB = none := by
  induction n with
  | zero => exact ⟨rfl, rfl⟩
  | succ n ih =>
    constructor
    · show (parentLoop [(NodeId.num 1, cycB), (NodeId.num 2, cycA)] n cycB).map
        (cycB :: ·) = none
      rw [ih.2]
      rfl
    · show (parentLoop [(NodeId.num 1, cycB), (NodeId.num 2, cycA)] n cycA).map
        (cycA :: ·) = none
      rw [ih.1]
      rfl

theorem cyc_getAllParents_none (n : Nat) :
    getAllParents n cycStore (NodeId.num 1) = none := by
  have h1 : alookup cycStore.parentChainCache (NodeId.num 1) = none := by decide
  have h2 : alookup cycStore.itemsMap (NodeId.num 1) = some cycA := by decide
  unfold getAllParents
  simp only [h1, h2, cyc_parentMap, (cyc_parentLoop_none n).1]

theorem cyc_getAllChildren_none (n : Nat) :
    getAllChildren n cycStore (NodeId.num 1) = none ∧
    getAllChildren n cycStore (NodeId.num 2) = none := by
  induction n with
  | zero => exact ⟨rfl, rfl⟩
  | succ n ih =>
    have hch1 : getChildren cycStore (NodeId.num 1) = [cycB] := by decide
    have hch2 : getChildren cycStore (NodeId.num 2) = [cycA] := by decide
    have hc1 : alookup cycStore.allChildrenCache (NodeId.num 1) = none := by decide
    have hc2 : alookup cycStore.allChildrenCache (NodeId.num 2) = none := by decide
    have hidB : cycB.id = NodeId.num 2 := rfl
    have hidA : cycA.id = NodeId.num 1 := rfl
    constructor
    · simp only [getAllChildren, hc1, hch1, getAllChildrenGo, hidB, ih.2]
    · simp only [getAllChildren, hc2, hch2, getAllChildrenGo, hidA, ih.1]

/-- C3 counterexample: on the store built from the two-record parent
cycle (id 1 with parent 2 and id 2 with parent 1), the ancestor walk of
`getAllParents` and the recursive traversal of `getAllChildren` never
complete, whatever step bound they are given: the source loops forever
on this input. -/
theorem C3_termination_counterexample :
    (∀ n, getAllParents n cycStore (NodeId.num 1) = none) ∧
    (∀ n, getAllChildren n cycStore (NodeId.num 1) = none) :=
  ⟨fun n => cyc_getAllParents_none n, fun n => (cyc_getAllChildren_none n).1⟩

/-- C3 (amended): `getAllParents` and `getAllChildren` are finite
computations on every store whose parent table and children table admit
rank functions decreasing along the stored links (in particular on every
store whose parent references are acyclic); on the cyclic input they do
not terminate. -/
theorem C3_termination_amended {s : Store} (id : NodeId) (rkP rkC : NodeId → Nat)
    (hrkP : ∀ e ∈ s.parentMap, rkP (e.2.id) < rkP e.1)
    (hrkC : ∀ e ∈ s.childrenMap, ∀ c ∈ e.2, rkC c.id < rkC e.1) :
    (∃ n r, getAllParents n s id = some r) ∧
    (∃ n r, getAllChildren n s id = some r) := by
  constructor
  · cases hc : alookup s.parentChainCache id with
    | some r => exact ⟨0, (r, s), by unfold getAllParents; simp [hc]⟩
    | none =>
      cases hi : alookup s.itemsMap id with
      | none => exact ⟨0, ([], s), by unfold getAllParents; simp [hc, hi]⟩
      | some item =>
        have hterm := parentLoop_term hrkP (rkP item.id) item (le_refl _)
        cases hpl : parentLoop s.parentMap (rkP item.id) item with
        | none => exact absurd hpl hterm
        | some res =>
          exact ⟨rkP item.id,
            (res, { s with parentChainCache := aset s.parentChainCache id res }),
            by unfold getAllParents; simp [hc, hi, hpl]⟩
  · have hne := getAllChildren_term hrkC (rkC id + 1) s id rfl (by omega)
    cases hg : getAllChildren (rkC id + 1) s id with
    | none => exact absurd hg hne
    | some r => exact ⟨rkC id + 1, r, hg⟩

def rkPw : NodeId → Nat
  | NodeId.num n => if n = 2 then 1 else 0
  | NodeId.str _ => 0

def rkCw : NodeId → Nat
  | NodeId.num n => if n = 1 then 1 else 0
  | NodeId.str _ => 0

/-- C3 witness: the amended termination theorem applies to the concrete
two-record chain store with explicit rank functions. -/
theorem C3_termination_amended_witness :
    (∀ e ∈ (newStore [⟨NodeId.num 1, none, "R"⟩,
        ⟨NodeId.num 2, some (NodeId.num 1), "C"⟩]).parentMap,
      rkPw (e.2.id) < rkPw e.1) ∧
    (∀ e ∈ (newStore [⟨NodeId.num 1, none, "R"⟩,
        ⟨NodeId.num 2, some (NodeId.num 1), "C"⟩]).childrenMap,
      ∀ c ∈ e.2, rkCw c.id < rkCw e.1) ∧
    ((∃ n r, getAllParents n (newStore [⟨NodeId.num 1, none, "R"⟩,
        ⟨NodeId.num 2, some (NodeId.num 1), "C"⟩]) (NodeId.num 2) = some r) ∧
     (∃ n r, getAllChildren n (newStore [⟨NodeId.num 1, none, "R"⟩,
        ⟨NodeId.num 2, some (NodeId.num 1), "C"⟩]) (NodeId.num 1) = some r)) := by
  refine ⟨by decide, by decide, ?_, ?_⟩
  · exact (C3_termination_amended (NodeId.num 2) rkPw rkCw (by decide) (by decide)).1
  · exact (C3_termination_amended (NodeId.num 1) rkPw rkCw (by decide) (by decide)).2

/-!
## C2: the ancestor-chain contract of getAllParents
-/

/-- C2: from a cold cache entry, a completed `getAllParents` call
returns exactly the parent-table chain walked strictly upward from the
record, nearest parent first: the head of the result is the direct
parent-table entry of the queried record, the last element is a record
with no further parent link, the result is empty when the id is unknown,
when the record is a root, and when its parent reference is dangling (no
parent-table entry), and — under any rank function decreasing along the
parent table, which holds of every acyclic store — the queried record
itself never appears in the result. -/
theorem C2_getAllParents_spec {fuel : Nat} {s : Store} {id : NodeId}
    {L : List TreeItem} {s' : Store}
    (hcold : alookup s.parentChainCache id = none)
    (h : getAllParents fuel s id = some (L, s')) :
    (alookup s.itemsMap id = none → L = []) ∧
    (∀ item, alookup s.itemsMap id = some item →
      IsChain s.parentMap item L ∧
      (item.parent = none → L = []) ∧
      (alookup s.parentMap item.id = none → L = []) ∧
      (∀ par L', L = par :: L' → alookup s.parentMap item.id = some par) ∧
      (L ≠ [] → ∃ lst, L.getLast? = some lst ∧
        (lst.parent = none ∨ alookup s.parentMap lst.id = none)) ∧
      (∀ rk : NodeId → Nat, (∀ e ∈ s.parentMap, rk (e.2.id) < rk e.1) →
        ∀ r ∈ L, r.id ≠ item.id)) := by
  unfold getAllParents at h
  simp only [hcold] at h
  cases hi : alookup s.itemsMap id with
  | none =>
    simp only [hi] at h
    simp at h
    obtain ⟨hL, -⟩ := h
    constructor
    · intro _
      exact hL
    · intro item hitem
      exact absurd hitem (by simp)
  | some item0 =>
    simp only [hi] at h
    cases hpl : parentLoop s.parentMap fuel item0 with
    | none => simp [hpl] at h
    | some res =>
      simp only [hpl] at h
      simp at h
      obtain ⟨hL, -⟩ := h
      subst hL
      have hch : IsChain s.parentMap item0 res := parentLoop_isChain hpl
      constructor
      · intro h0
        exact absurd h0 (by simp)
      · intro item hitem
        obtain rfl := Option.some.inj hitem
        refine ⟨hch, ?_, ?_, ?_, ?_, ?_⟩
        · intro hpar
          cases hch with
          | rootStop _ => rfl
          | missStop _ _ => rfl
          | step hp hl hc =>
            rw [hpar] at hp
            cases hp
        · intro hpm
          cases hch with
          | rootStop _ => rfl
          | missStop _ _ => rfl
          | step hp hl hc =>
            rw [hpm] at hl
            cases hl
        · intro par L' hL
          cases hch with
          | rootStop _ => exact absurd hL (by simp)
          | missStop _ _ => exact absurd hL (by simp)
          | step hp hl hc =>
            obtain ⟨rfl, -⟩ : _ ∧ _ := by
              injection hL with h1 h2
              exact ⟨h1, h2⟩
            exact hl
        · exact isChain_last hch
        · intro rk hrk r hr heq
          have hlt := isChain_rank hrk hch r hr
          rw [heq] at hlt
          exact absurd hlt (lt_irrefl _)

def dangItem : TreeItem := ⟨NodeId.num 1, some (NodeId.num 999), "X"⟩

/-- The store of the claim example: one record with a dangling parent. -/
def dangStore : Store := newStore [dangItem]

def dangStoreAfter : Store :=
  { dangStore with
      parentChainCache := aset dangStore.parentChainCache (NodeId.num 1) [] }

/-- C2 witness: on the dangling-parent store of the claim example,
`getAllParents(1)` completes with the empty chain and the chain
specification is satisfied. -/
theorem C2_getAllParents_spec_witness :
    (alookup dangStore.parentChainCache (NodeId.num 1) = none) ∧
    (getAllParents 5 dangStore (NodeId.num 1) = some ([], dangStoreAfter)) ∧
    IsChain dangStore.parentMap dangItem [] := by
  have h1 : alookup dangStore.parentChainCache (NodeId.num 1) = none := by decide
  have h2 : getAllParents 5 dangStore (NodeId.num 1) = some ([], dangStoreAfter) := by
    decide
  have h3 := C2_getAllParents_spec h1 h2
  exact ⟨h1, h2, (h3.2 dangItem (by decide)).1⟩

/-!
## C1: the invalidation walk misses descendants of a reparented node
-/

def c1Items : List TreeItem :=
  [⟨NodeId.num 1, none, "R"⟩, ⟨NodeId.num 2, some (NodeId.num 1), "B"⟩,
   ⟨NodeId.num 3, none, "C"⟩, ⟨NodeId.num 4, some (NodeId.num 2), "D"⟩]

def c1Store : Store := newStore c1Items

/-- Runs the failing scenario: prime the ancestor-chain cache of record
4, reparent record 2 under record 3 with `updateItem`, query record 4's
ancestor chain again, and finally recompute that chain with the chain
cache cleared.  Returns the primed chain, the post-mutation chain and
the fresh recomputation. -/
def c1Scenario : Option (List TreeItem × List TreeItem × List TreeItem) :=
  match getAllParents 10 c1Store (NodeId.num 4) with
  | none => none
  | some (chain1, s1) =>
    match updateItem 10 s1 ⟨NodeId.num 2, some (NodeId.num 3), "B"⟩ with
    | none => none
    | some s2 =>
      match getAllParents 10 s2 (NodeId.num 4) with
      | none => none
      | some (chain2, s3) =>
        match getAllParents 10 { s3 with parentChainCache := [] } (NodeId.num 4) with
        | none => none
        | some (fresh, _) => some (chain1, chain2, fresh)

/-- C1: after reparenting record 2 from parent 1 to parent 3,
`getAllParents(4)` still returns the cached chain ending in record 1,
while a fresh recomputation over the current tables ends in record 3:
the upward invalidation walk never reaches the descendants of the moved
node, so their ancestor-chain cache entries go stale, contradicting the
claimed coherence invariant. -/
theorem C1_cache_coherence_code_bug :
    c1Scenario = some
      ([⟨NodeId.num 2, some (NodeId.num 1), "B"⟩, ⟨NodeId.num 1, none, "R"⟩],
       [⟨NodeId.num 2, some (NodeId.num 1), "B"⟩, ⟨NodeId.num 1, none, "R"⟩],
       [⟨NodeId.num 2, some (NodeId.num 1), "B"⟩, ⟨NodeId.num 3, none, "C"⟩]) ∧
    ([⟨NodeId.num 2, some (NodeId.num 1), "B"⟩, ⟨NodeId.num 1, none, "R"⟩] : List TreeItem) ≠
      [⟨NodeId.num 2, some (NodeId.num 1), "B"⟩, ⟨NodeId.num 3, none, "C"⟩] := by
  constructor
  · decide
  · decide

/-!
## C8: the children/ancestors round trip
-/

def c8Store : Store :=
  newStore [⟨NodeId.num 1, none, "Root"⟩, ⟨NodeId.num 2, some (NodeId.num 1), "Child 1"⟩]

def c8After : Store :=
  (updateItem 10 c8Store ⟨NodeId.num 2, some (NodeId.num 1), "Updated"⟩).getD c8Store

def c8Queried : Store :=
  ((getAllParents 10 c8After (NodeId.num 2)).map Prod.snd).getD c8After

/-- C8 counterexample: after `updateItem` replaces record 2 keeping the
same parent, the parent's children list still holds the old record
object, so the live record x = getItem(2) is a non-root record (its
parent resolves to record 1) that is not a member of
getChildren(getAllAncestors(x)[0]). -/
theorem C8_roundtrip_counterexample :
    updateItem 10 c8Store ⟨NodeId.num 2, some (NodeId.num 1), "Updated"⟩ = some c8After ∧
    getItem c8After (NodeId.num 2) =
      some ⟨NodeId.num 2, some (NodeId.num 1), "Updated"⟩ ∧
    (getItem c8After (NodeId.num 1)).isSome = true ∧
    getAllParents 10 c8After (NodeId.num 2) =
      some ([⟨NodeId.num 1, none, "Root"⟩], c8Queried) ∧
    getChildren c8Queried (NodeId.num 1) =
      [⟨NodeId.num 2, some (NodeId.num 1), "Child 1"⟩] ∧
    (⟨NodeId.num 2, some (NodeId.num 1), "Updated"⟩ : TreeItem) ∉
      getChildren c8Queried (NodeId.num 1) := by
  refine ⟨by decide, by decide, by decide, by decide, by decide, by decide⟩

/-- C8 (amended): for every record with an entry q in the parent table
(the stored form of "non-root"), a completed cold `getAllParents` call
has q as its first element, and the record's id — though not necessarily
the live record object itself, whose payload may have been replaced by a
same-parent `updateItem` — appears among the ids of `getChildren` of
that first element. -/
theorem C8_roundtrip_amended {fuel : Nat} {s : Store} {id : NodeId}
    {item q : TreeItem} {pp : NodeId} {L : List TreeItem} {s' : Store}
    (hcold : alookup s.parentChainCache id = none)
    (hitem : alookup s.itemsMap id = some item)
    (hid : item.id = id)
    (hpar : item.parent = some pp)
    (hpm : alookup s.parentMap id = some q)
    (hpair : ∀ e ∈ s.parentMap, ∃ l, alookup s.childrenMap (e.2.id) = some l ∧
      ∃ c ∈ l, c.id = e.1)
    (h : getAllParents fuel s id = some (L, s')) :
    L.head? = some q ∧ id ∈ (getChildren s' q.id).map TreeItem.id := by
  have hpres := getAllParents_preserves h
  unfold getAllParents at h
  simp only [hcold, hitem] at h
  cases hpl : parentLoop s.parentMap fuel item with
  | none => simp [hpl] at h
  | some res =>
    simp only [hpl] at h
    simp at h
    obtain ⟨hL, -⟩ := h
    subst hL
    have hch : IsChain s.parentMap item res := parentLoop_isChain hpl
    have hpm' : alookup s.parentMap item.id = some q := by rw [hid]; exact hpm
    have hhead : res.head? = some q := by
      cases hch with
      | rootStop h0 => rw [hpar] at h0; cases h0
      | missStop h0 h1 => rw [hpm'] at h1; cases h1
      | step hp hl hc =>
        rw [hpm'] at hl
        obtain rfl := Option.some.inj hl
        rfl
    refine ⟨hhead, ?_⟩
    obtain ⟨l, hl, c, hcmem, hcid⟩ := hpair (id, q) (alookup_mem hpm)
    have hch' : getChildren s' q.id = l := by
      unfold getChildren
      rw [hpres.2.2.1, hl]
      rfl
    rw [hch']
    exact List.mem_map.mpr ⟨c, hcmem, hcid⟩

def c8wAfter : Store :=
  { c8Store with
      parentChainCache := aset c8Store.parentChainCache (NodeId.num 2)
        [⟨NodeId.num 1, none, "Root"⟩] }

/-- C8 witness: the amended round trip holds on the fresh two-record
store. -/
theorem C8_roundtrip_amended_witness :
    (alookup c8Store.parentChainCache (NodeId.num 2) = none) ∧
    (alookup c8Store.itemsMap (NodeId.num 2) =
      some ⟨NodeId.num 2, some (NodeId.num 1), "Child 1"⟩) ∧
    (alookup c8Store.parentMap (NodeId.num 2) = some ⟨NodeId.num 1, none, "Root"⟩) ∧
    (getAllParents 10 c8Store (NodeId.num 2) =
      some ([⟨NodeId.num 1, none, "Root"⟩], c8wAfter)) ∧
    (([⟨NodeId.num 1, none, "Root"⟩] : List TreeItem).head? =
        some ⟨NodeId.num 1, none, "Root"⟩ ∧
      NodeId.num 2 ∈ (getChildren c8wAfter
        ((⟨NodeId.num 1, none, "Root"⟩ : TreeItem).id)).map TreeItem.id) := by
  have h1 : alookup c8Store.parentChainCache (NodeId.num 2) = none := by decide
  have h2 : alookup c8Store.itemsMap (NodeId.num 2) =
      some ⟨NodeId.num 2, some (NodeId.num 1), "Child 1"⟩ := by decide
  have h3 : (⟨NodeId.num 2, some (NodeId.num 1), "Child 1"⟩ : TreeItem).id =
      NodeId.num 2 := by decide
  have h4 : (⟨NodeId.num 2, some (NodeId.num 1), "Child 1"⟩ : TreeItem).parent =
      some (NodeId.num 1) := by decide
  have h5 : alookup c8Store.parentMap (NodeId.num 2) =
      some ⟨NodeId.num 1, none, "Root"⟩ := by decide
  have h6 : ∀ e ∈ c8Store.parentMap, ∃ l, alookup c8Store.childrenMap (e.2.id) = some l ∧
      ∃ c ∈ l, c.id = e.1 := by decide
  have h7 : getAllParents 10 c8Store (NodeId.num 2) =
      some ([⟨NodeId.num 1, none, "Root"⟩], c8wAfter) := by decide
  exact ⟨h1, h2, h5, h7, C8_roundtrip_amended h1 h2 h3 h4 h5 h6 h7⟩

/-!
## C9 and C10: whole-record replacement and dangling references
-/

theorem removeFirstById_not_mem {l : List TreeItem} {id : NodeId}
    (hnd : (l.map TreeItem.id).Nodup) :
    id ∉ (removeFirstById l id).map TreeItem.id := by
  induction l with
  | nil => simp [removeFirstById]
  | cons x xs ih =>
    have hnd2 : (x.id :: xs.map TreeItem.id).Nodup := hnd
    simp only [removeFirstById]
    by_cases hx : x.id = id
    · rw [if_pos hx]
      have hni := (List.nodup_cons.mp hnd2).1
      rw [hx] at hni
      exact hni
    · rw [if_neg hx]
      intro hmem
      have hmem' : id ∈ x.id :: (removeFirstById xs id).map TreeItem.id := hmem
      rcases List.mem_cons.mp hmem' with heq | hmem2
      · exact hx heq.symm
      · exact ih (List.nodup_cons.mp hnd2).2 hmem2

/-- C9: `updateItem` with a record that carries an id whose stored record
has a live parent p, but itself has no parent reference, performs a
whole-record replacement and detaches the record from p: afterwards the
stored record is exactly the argument, p's children no longer contain
the id, and `getAllParents` of the id is the empty chain (p is no longer
reached). -/
theorem C9_updateItem_replaces_and_detaches {fuel : Nat} {s : Store}
    {newRec old : TreeItem} {p : NodeId} {s' : Store}
    (hold : alookup s.itemsMap newRec.id = some old)
    (hop : old.parent = some p)
    (hnew : newRec.parent = none)
    (hnd : ∀ l, alookup s.childrenMap p = some l → (l.map TreeItem.id).Nodup)
    (h : updateItem fuel s newRec = some s') :
    getItem s' newRec.id = some newRec ∧
    newRec.id ∉ (getChildren s' p).map TreeItem.id ∧
    (∀ f', ∃ s'', getAllParents f' s' newRec.id = some ([], s'')) := by
  unfold updateItem at h
  simp only [hold] at h
  simp only [hop, hnew] at h
  simp at h
  cases hcl : alookup s.childrenMap p with
  | none =>
    rw [hcl] at h
    simp at h
    obtain ⟨pres1, pres2, pres3, pres4⟩ := invalidateCache_preserves _ fuel h
    have hdel := invalidateCache_deleted _ fuel h newRec.id (by simp)
    have hitem' : getItem s' newRec.id = some newRec := by
      unfold getItem
      rw [pres2]
      exact alookup_aset_self _ _ _
    refine ⟨hitem', ?_, ?_⟩
    · unfold getChildren
      rw [pres3]
      simp only
      rw [hcl]
      simp
    · intro f'
      refine ⟨{ s' with parentChainCache := aset s'.parentChainCache newRec.id [] }, ?_⟩
      unfold getAllParents
      rw [hdel.2]
      unfold getItem at hitem'
      rw [hitem']
      cases f' <;> simp [parentLoop, hnew]
  | some l =>
    rw [hcl] at h
    simp at h
    obtain ⟨pres1, pres2, pres3, pres4⟩ := invalidateCache_preserves _ fuel h
    have hdel := invalidateCache_deleted _ fuel h newRec.id (by simp)
    have hitem' : getItem s' newRec.id = some newRec := by
      unfold getItem
      rw [pres2]
      exact alookup_aset_self _ _ _
    refine ⟨hitem', ?_, ?_⟩
    · unfold getChildren
      rw [pres3]
      simp only
      rw [alookup_aset_self]
      simp only [Option.getD_some]
      exact removeFirstById_not_mem (hnd l hcl)
    · intro f'
      refine ⟨{ s' with parentChainCache := aset s'.parentChainCache newRec.id [] }, ?_⟩
      unfold getAllParents
      rw [hdel.2]
      unfold getItem at hitem'
      rw [hitem']
      cases f' <;> simp [parentLoop, hnew]

def c9After : Store :=
  (updateItem 10 c8Store ⟨NodeId.num 2, none, "Moved"⟩).getD c8Store

/-- C9 witness: moving record 2 to the root by omitting the parent field
detaches it from record 1. -/
theorem C9_updateItem_witness :
    updateItem 10 c8Store ⟨NodeId.num 2, none, "Moved"⟩ = some c9After ∧
    (getItem c9After (NodeId.num 2) = some ⟨NodeId.num 2, none, "Moved"⟩ ∧
      NodeId.num 2 ∉ (getChildren c9After (NodeId.num 1)).map TreeItem.id ∧
      (∀ f', ∃ s'', getAllParents f' c9After (NodeId.num 2) = some ([], s''))) := by
  have hold : alookup c8Store.itemsMap
      ((⟨NodeId.num 2, none, "Moved"⟩ : TreeItem).id) =
      some ⟨NodeId.num 2, some (NodeId.num 1), "Child 1"⟩ := by decide
  have hop : (⟨NodeId.num 2, some (NodeId.num 1), "Child 1"⟩ : TreeItem).parent =
      some (NodeId.num 1) := by decide
  have hnew : (⟨NodeId.num 2, none, "Moved"⟩ : TreeItem).parent = none := by decide
  have hnd : ∀ l, alookup c8Store.childrenMap (NodeId.num 1) = some l →
      (l.map TreeItem.id).Nodup := by
    intro l hl
    have he : alookup c8Store.childrenMap (NodeId.num 1) =
        some [⟨NodeId.num 2, some (NodeId.num 1), "Child 1"⟩] := by decide
    rw [he] at hl
    obtain rfl := Option.some.inj hl
    decide
  have h : updateItem 10 c8Store ⟨NodeId.num 2, none, "Moved"⟩ = some c9After := by
    decide
  exact ⟨h, C9_updateItem_replaces_and_detaches hold hop hnew hnd h⟩

theorem linkParent_itemsMap (s : Store) (item : TreeItem) :
    (linkParent s item).itemsMap = s.itemsMap := by
  unfold linkParent
  cases item.parent with
  | none => rfl
  | some pid =>
    dsimp only
    cases alookup s.itemsMap pid with
    | none => rfl
    | some parent =>
      dsimp only
      cases alookup s.childrenMap pid <;> rfl

theorem linkParent_caches (s : Store) (item : TreeItem) :
    (linkParent s item).allChildrenCache = s.allChildrenCache ∧
    (linkParent s item).parentChainCache = s.parentChainCache := by
  unfold linkParent
  cases item.parent with
  | none => exact ⟨rfl, rfl⟩
  | some pid =>
    dsimp only
    cases alookup s.itemsMap pid with
    | none => exact ⟨rfl, rfl⟩
    | some parent =>
      dsimp only
      cases alookup s.childrenMap pid <;> exact ⟨rfl, rfl⟩

theorem linkParent_childrenMap_other {s : Store} {item : TreeItem} {p : NodeId}
    (hne : item.parent ≠ some p) :
    alookup (linkParent s item).childrenMap p = alookup s.childrenMap p := by
  unfold linkParent
  cases hq : item.parent with
  | none => rfl
  | some q =>
    have hqp : q ≠ p := fun hh => hne (by rw [hq, hh])
    dsimp only
    cases alookup s.itemsMap q with
    | none => rfl
    | some parent =>
      dsimp only
      cases alookup s.childrenMap q with
      | some sib =>
        dsimp only
        exact alookup_aset_ne _ _ (Ne.symm hqp)
      | none =>
        dsimp only
        exact alookup_aset_ne _ _ (Ne.symm hqp)

theorem linkParent_parentMap_other {s : Store} {item : TreeItem} {x : NodeId}
    (hne : item.id ≠ x) :
    alookup (linkParent s item).parentMap x = alookup s.parentMap x := by
  unfold linkParent
  cases hq : item.parent with
  | none => rfl
  | some q =>
    dsimp only
    cases alookup s.itemsMap q with
    | none => rfl
    | some parent =>
      dsimp only
      cases alookup s.childrenMap q with
      | some sib =>
        dsimp only
        exact alookup_aset_ne _ _ (Ne.symm hne)
      | none =>
        dsimp only
        exact alookup_aset_ne _ _ (Ne.symm hne)

/-- C10: a dangling parent reference is never retroactively resolved by
`addItem`: if record c refers to parent id p with no live record p, then
after adding a new record with id p (whose own parent reference is not
p), `getChildren(p)` is still empty — the new record's children entry is
initialized empty and c is not re-linked — and `getAllParents(c)` is
still the empty chain. -/
theorem C10_addItem_never_relinks {fuel : Nat} {s : Store} {cId p : NodeId}
    {cRec newIt : TreeItem} {s' : Store}
    (hc : alookup s.itemsMap cId = some cRec)
    (hcid : cRec.id = cId)
    (hcp : cRec.parent = some p)
    (hpnone : alookup s.itemsMap p = none)
    (hpm : alookup s.parentMap cId = none)
    (hccold : alookup s.parentChainCache cId = none)
    (hnp : newIt.id = p)
    (hnpar : newIt.parent ≠ some p)
    (h : addItem fuel s newIt = some s') :
    getChildren s' p = [] ∧
    (∀ f', ∃ s'', getAllParents f' s' cId = some ([], s'')) := by
  have hpc : p ≠ cId := by
    intro heq
    rw [heq, hc] at hpnone
    cases hpnone
  have hdup : alookup s.itemsMap newIt.id = none := by rw [hnp]; exact hpnone
  unfold addItem at h
  simp only [hdup, Option.isSome_none, Bool.false_eq_true, if_false] at h
  obtain ⟨pres1, pres2, pres3, pres4⟩ := invalidateCache_preserves _ fuel h
  have hlpc := linkParent_caches
    { s with items := s.items ++ [newIt],
             itemsMap := aset s.itemsMap newIt.id newIt,
             childrenMap := aset s.childrenMap newIt.id [] } newIt
  have hccold' : alookup s'.parentChainCache cId = none := by
    have hbefore : alookup (linkParent
        { s with items := s.items ++ [newIt],
                 itemsMap := aset s.itemsMap newIt.id newIt,
                 childrenMap := aset s.childrenMap newIt.id [] } newIt).parentChainCache
        cId = none := by
      rw [hlpc.2]
      exact hccold
    exact ((invalidateCache_none _ fuel h cId).2) hbefore
  have hitems' : alookup s'.itemsMap cId = some cRec := by
    rw [pres2, linkParent_itemsMap]
    simp only
    rw [alookup_aset_ne _ _ (by rw [hnp]; exact Ne.symm hpc)]
    exact hc
  have hpm' : alookup s'.parentMap cId = none := by
    rw [pres4, linkParent_parentMap_other (by rw [hnp]; exact hpc)]
    exact hpm
  constructor
  · unfold getChildren
    rw [pres3, linkParent_childrenMap_other hnpar]
    simp only
    rw [hnp, alookup_aset_self]
    rfl
  · intro f'
    refine ⟨{ s' with parentChainCache := aset s'.parentChainCache cId [] }, ?_⟩
    unfold getAllParents
    rw [hccold', hitems']
    have hloop : parentLoop s'.parentMap f' cRec = some [] := by
      have hpmr : alookup s'.parentMap cRec.id = none := by rw [hcid]; exact hpm'
      cases f' <;> simp [parentLoop, hcp, hpmr]
    simp [hloop]

def c10After : Store :=
  (addItem 10 dangStore ⟨NodeId.num 999, none, "P"⟩).getD dangStore

/-- C10 witness: adding a record with the previously dangling id 999
does not resolve record 1's dangling reference. -/
theorem C10_addItem_never_relinks_witness :
    addItem 10 dangStore ⟨NodeId.num 999, none, "P"⟩ = some c10After ∧
    (getChildren c10After (NodeId.num 999) = [] ∧
      (∀ f', ∃ s'', getAllParents f' c10After (NodeId.num 1) = some ([], s''))) := by
  have hc : alookup dangStore.itemsMap (NodeId.num 1) = some dangItem := by decide
  have hcid : dangItem.id = NodeId.num 1 := by decide
  have hcp : dangItem.parent = some (NodeId.num 999) := by decide
  have hpnone : alookup dangStore.itemsMap (NodeId.num 999) = none := by decide
  have hpm : alookup dangStore.parentMap (NodeId.num 1) = none := by decide
  have hccold : alookup dangStore.parentChainCache (NodeId.num 1) = none := by decide
  have hnp : (⟨NodeId.num 999, none, "P"⟩ : TreeItem).id = NodeId.num 999 := by decide
  have hnpar : (⟨NodeId.num 999, none, "P"⟩ : TreeItem).parent ≠
      some (NodeId.num 999) := by decide
  have h : addItem 10 dangStore ⟨NodeId.num 999, none, "P"⟩ = some c10After := by decide
  exact ⟨h, C10_addItem_never_relinks hc hcid hcp hpnone hpm hccold hnp hnpar h⟩

/-!
## C4: the pre-order contract of getAllChildren
-/

theorem descendList_blocks {d : NodeId → Option (List TreeItem)} :
    ∀ {cs L : List TreeItem}, descendList d cs = some L →
      ∃ bs : List (List TreeItem), bs.length = cs.length ∧
        L = (cs.zip bs).flatMap (fun pr => pr.1 :: pr.2) ∧
        ∀ pr ∈ cs.zip bs, d pr.1.id = some pr.2 := by
  intro cs
  induction cs with
  | nil =>
    intro L h
    simp [descendList] at h
    subst h
    exact ⟨[], rfl, by simp, by simp⟩
  | cons c cs ih =>
    intro L h
    simp only [descendList] at h
    cases h1 : d c.id with
    | none => simp [h1] at h
    | some sub =>
      cases h2 : descendList d cs with
      | none => simp [h1, h2] at h
      | some rest =>
        simp [h1, h2] at h
        subst h
        obtain ⟨bs, hlen, hL, hall⟩ := ih h2
        refine ⟨sub :: bs, by simp [hlen], ?_, ?_⟩
        · rw [List.zip_cons_cons]
          show c :: (sub ++ rest) = (c :: sub) ++ (cs.zip bs).flatMap fun pr => pr.1 :: pr.2
          rw [← hL]
          simp
        · intro pr hpr
          rw [List.zip_cons_cons] at hpr
          rcases List.mem_cons.mp hpr with heq | hmem
          · rw [heq]
            exact h1
          · exact hall pr hmem

/-- C4: a completed `getAllChildren` call on a store with a cold
descendant cache returns the cache-free recomputation: exactly the
records reachable from the id by repeated `getChildren` steps, laid out
in depth-first pre-order (each direct child followed by the block of its
own descendants, in children-list order), empty when the id is unknown
or childless; and under functional parenthood, duplicate-free children
lists and a rank function decreasing along child edges (all of which
hold of a well-formed store), every record id occurs at most once. -/
theorem C4_getAllChildren_preorder {fuel f0 : Nat} {s : Store} {id : NodeId}
    {L D : List TreeItem} {s' : Store}
    (hcold : s.allChildrenCache = [])
    (hD : descend s.childrenMap f0 id = some D)
    (h : getAllChildren fuel s id = some (L, s')) :
    L = D ∧
    (∀ r, r ∈ L ↔ Reach s.childrenMap id r) ∧
    (getChildren s id = [] → L = []) ∧
    (∃ bs : List (List TreeItem), bs.length = (getChildren s id).length ∧
      L = ((getChildren s id).zip bs).flatMap (fun pr => pr.1 :: pr.2) ∧
      ∀ pr ∈ (getChildren s id).zip bs,
        ∃ g, descend s.childrenMap g pr.1.id = some pr.2) ∧
    (∀ (pIdx : NodeId → Option NodeId) (rk : NodeId → Nat),
      (∀ e ∈ s.childrenMap, ∀ c ∈ e.2, pIdx c.id = some e.1) →
      (∀ e ∈ s.childrenMap, ∀ c ∈ e.2, rk c.id < rk e.1) →
      (∀ e ∈ s.childrenMap, (e.2.map TreeItem.id).Nodup) →
      (L.map TreeItem.id).Nodup) := by
  have hok : CacheOK s := by
    intro k v hkv
    rw [hcold] at hkv
    simp [alookup] at hkv
  obtain ⟨⟨f1, hf1⟩, -⟩ := getAllChildren_descend fuel hok h
  have hLD : L = D := descend_unique hf1 hD
  refine ⟨hLD, ?_, ?_, ?_, ?_⟩
  · intro r
    constructor
    · exact fun hr => descend_mem hf1 r hr
    · exact fun hreach => (descend_reach_sub hf1 hreach).1
  · intro hempty
    cases f1 with
    | zero => simp [descend] at hf1
    | succ g =>
      simp only [descend] at hf1
      have hc : childrenOf s.childrenMap id = getChildren s id := rfl
      rw [hc, hempty] at hf1
      simp [descendList] at hf1
      exact hf1
  · cases f1 with
    | zero => simp [descend] at hf1
    | succ g =>
      simp only [descend] at hf1
      have hc : childrenOf s.childrenMap id = getChildren s id := rfl
      rw [hc] at hf1
      obtain ⟨bs, hlen, hL, hall⟩ := descendList_blocks hf1
      exact ⟨bs, hlen, hL, fun pr hpr => ⟨g, hall pr hpr⟩⟩
  · intro pIdx rk hfun hrk hnd
    exact descend_nodup
      (fun p l hl => hfun (p, l) (alookup_mem hl))
      (fun p l hl => hrk (p, l) (alookup_mem hl))
      (fun p l hl => hnd (p, l) (alookup_mem hl))
      hf1

def c4Store : Store :=
  newStore [⟨NodeId.num 1, none, "R"⟩, ⟨NodeId.num 2, some (NodeId.num 1), "a"⟩,
    ⟨NodeId.num 3, some (NodeId.num 1), "b"⟩, ⟨NodeId.num 4, some (NodeId.num 2), "c"⟩,
    ⟨NodeId.num 5, some (NodeId.num 2), "d"⟩]

def c4D : List TreeItem :=
  [⟨NodeId.num 2, some (NodeId.num 1), "a"⟩, ⟨NodeId.num 4, some (NodeId.num 2), "c"⟩,
   ⟨NodeId.num 5, some (NodeId.num 2), "d"⟩, ⟨NodeId.num 3, some (NodeId.num 1), "b"⟩]

def c4Run : Option (List TreeItem × Store) := getAllChildren 10 c4Store (NodeId.num 1)

def c4L : List TreeItem := (c4Run.map Prod.fst).getD []

def c4S : Store := (c4Run.map Prod.snd).getD c4Store

def c4pIdx (id : NodeId) : Option NodeId :=
  if id = NodeId.num 2 ∨ id = NodeId.num 3 then some (NodeId.num 1)
  else if id = NodeId.num 4 ∨ id = NodeId.num 5 then some (NodeId.num 2)
  else none

def c4rk (id : NodeId) : Nat :=
  if id = NodeId.num 1 then 2
  else if id = NodeId.num 2 ∨ id = NodeId.num 3 then 1
  else 0

/-- C4 witness: the pre-order contract holds on the claim's example
tree, where `getAllChildren(1)` lists 2, 4, 5, 3. -/
theorem C4_getAllChildren_preorder_witness :
    c4Store.allChildrenCache = [] ∧
    descend c4Store.childrenMap 4 (NodeId.num 1) = some c4D ∧
    getAllChildren 10 c4Store (NodeId.num 1) = some (c4L, c4S) ∧
    c4L = c4D ∧
    (c4L.map TreeItem.id).Nodup := by
  have h1 : c4Store.allChildrenCache = [] := by decide
  have h2 : descend c4Store.childrenMap 4 (NodeId.num 1) = some c4D := by decide
  have h3 : getAllChildren 10 c4Store (NodeId.num 1) = some (c4L, c4S) := by decide
  have hthm := C4_getAllChildren_preorder h1 h2 h3
  exact ⟨h1, h2, h3, hthm.1,
    hthm.2.2.2.2 c4pIdx c4rk (by decide) (by decide) (by decide)⟩

/-!
## C5: cascading removal
-/

theorem removeFold_basic (ids : List NodeId) : ∀ (t : Store),
    (removeFold ids t).items = t.items ∧
    (removeFold ids t).allChildrenCache = t.allChildrenCache ∧
    (removeFold ids t).parentChainCache = t.parentChainCache := by
  induction ids with
  | nil => intro t; exact ⟨rfl, rfl, rfl⟩
  | cons i ids ih =>
    intro t
    have h := ih (removeStep t i)
    exact ⟨h.1, h.2.1, h.2.2⟩

theorem removeFold_not_mem (ids : List NodeId) : ∀ (t : Store) (x : NodeId), x ∉ ids →
    alookup (removeFold ids t).itemsMap x = alookup t.itemsMap x ∧
    alookup (removeFold ids t).childrenMap x = alookup t.childrenMap x := by
  induction ids with
  | nil => intro t x _; exact ⟨rfl, rfl⟩
  | cons i ids ih =>
    intro t x hx
    have hxi : x ≠ i := fun hh => hx (by simp [hh])
    have hxids : x ∉ ids := fun hh => hx (by simp [hh])
    have h2 := ih (removeStep t i) x hxids
    refine ⟨h2.1.trans ?_, h2.2.trans ?_⟩
    · exact alookup_adel_ne _ hxi
    · exact alookup_adel_ne _ hxi

theorem removeFold_mem_none (ids : List NodeId) : ∀ (t : Store) (x : NodeId), x ∈ ids →
    alookup (removeFold ids t).itemsMap x = none ∧
    alookup (removeFold ids t).childrenMap x = none := by
  induction ids with
  | nil => intro t x hx; simp at hx
  | cons i ids ih =>
    intro t x hx
    by_cases hmem : x ∈ ids
    · exact ih (removeStep t i) x hmem
    · have hxi : x = i := by
        rcases List.mem_cons.mp hx with hh | hh
        · exact hh
        · exact absurd hh hmem
      subst hxi
      have h2 := removeFold_not_mem ids (removeStep t x) x hmem
      refine ⟨h2.1.trans ?_, h2.2.trans ?_⟩
      · exact alookup_adel_self _ _
      · exact alookup_adel_self _ _

theorem detachFromParent_fields (s : Store) (item : TreeItem) (id : NodeId) :
    (detachFromParent s item id).items = s.items ∧
    (detachFromParent s item id).itemsMap = s.itemsMap ∧
    (detachFromParent s item id).allChildrenCache = s.allChildrenCache ∧
    (detachFromParent s item id).parentChainCache = s.parentChainCache := by
  unfold detachFromParent
  cases item.parent with
  | none => exact ⟨rfl, rfl, rfl, rfl⟩
  | some pid =>
    dsimp only
    cases alookup s.childrenMap pid with
    | none => exact ⟨rfl, rfl, rfl, rfl⟩
    | some siblings => exact ⟨rfl, rfl, rfl, rfl⟩

/-- C5: `removeItem` on an unknown id returns the store unchanged; on a
known id (queried with cold descendant caches, so that the computed
descendant set is the true one) it removes exactly the id together with
all records reachable from it by repeated `getChildren`: the removed-id
list is exactly that set, the live sequence keeps exactly the other
records, `getItem` turns undefined exactly on the removed ids, and the
former parent's children list no longer contains the id. -/
theorem C5_removeItem_spec :
    (∀ (fuel : Nat) (s : Store) (id : NodeId), alookup s.itemsMap id = none →
        removeItem fuel s id = some s) ∧
    (∀ (fuel f0 : Nat) (s : Store) (id : NodeId) (item : TreeItem)
        (D : List TreeItem) (s' : Store),
      alookup s.itemsMap id = some item →
      s.allChildrenCache = [] →
      descend s.childrenMap f0 id = some D →
      removeItem fuel s id = some s' →
      ((∀ x, (x ∈ id :: D.map TreeItem.id) ↔
          (x = id ∨ ∃ r, Reach s.childrenMap id r ∧ r.id = x)) ∧
       (∀ it, it ∈ getAll s' ↔ (it ∈ getAll s ∧ it.id ∉ id :: D.map TreeItem.id)) ∧
       (∀ x ∈ id :: D.map TreeItem.id, getItem s' x = none) ∧
       (∀ x, x ∉ id :: D.map TreeItem.id → getItem s' x = getItem s x) ∧
       (∀ pp, item.parent = some pp →
          (∀ l, alookup s.childrenMap pp = some l → (l.map TreeItem.id).Nodup) →
          id ∉ (getChildren s' pp).map TreeItem.id))) := by
  constructor
  · intro fuel s id hnone
    unfold removeItem
    rw [hnone]
  · intro fuel f0 s id item D s' hitem hcold hD h
    unfold removeItem at h
    simp only [hitem] at h
    cases hgac : getAllChildren fuel s id with
    | none => simp [hgac] at h
    | some p1 =>
      obtain ⟨allD, s1⟩ := p1
      simp only [hgac] at h
      have hok : CacheOK s := by
        intro k v hkv
        rw [hcold] at hkv
        simp [alookup] at hkv
      obtain ⟨⟨f1, hf1⟩, -⟩ := getAllChildren_descend fuel hok hgac
      have hAD : D = allD := (descend_unique hf1 hD).symm
      subst hAD
      have hpres := getAllChildren_preserves fuel hgac
      obtain ⟨pinv1, pinv2, pinv3, pinv4⟩ := invalidateCache_preserves _ fuel h
      have hdf := detachFromParent_fields
        (removeFold (id :: D.map TreeItem.id)
          (removePrepared s1 (id :: D.map TreeItem.id))) item id
      have hrf := removeFold_basic (id :: D.map TreeItem.id)
        (removePrepared s1 (id :: D.map TreeItem.id))
      refine ⟨?_, ?_, ?_, ?_, ?_⟩
      · intro x
        constructor
        · intro hx
          rcases List.mem_cons.mp hx with rfl | hx2
          · exact Or.inl rfl
          · obtain ⟨r, hr, hrid⟩ := List.mem_map.mp hx2
            exact Or.inr ⟨r, descend_mem hf1 r hr, hrid⟩
        · intro hx
          rcases hx with rfl | ⟨r, hreach, hrid⟩
          · simp
          · exact List.mem_cons_of_mem _
              (List.mem_map.mpr ⟨r, (descend_reach_sub hf1 hreach).1, hrid⟩)
      · intro it
        unfold getAll
        rw [pinv1, hdf.1, hrf.1]
        unfold removePrepared
        simp only [List.mem_filter, hpres.1]
        rw [decide_eq_true_eq]
      · intro x hx
        unfold getItem
        rw [pinv2, hdf.2.1]
        exact (removeFold_mem_none _ _ x hx).1
      · intro x hx
        unfold getItem
        rw [pinv2, hdf.2.1, (removeFold_not_mem _ _ x hx).1]
        unfold removePrepared
        simp only [hpres.2.1]
      · intro pp hpp hnd
        unfold getChildren
        rw [pinv3]
        unfold detachFromParent
        rw [hpp]
        simp only
        cases hcl : alookup (removeFold (id :: D.map TreeItem.id)
            (removePrepared s1 (id :: D.map TreeItem.id))).childrenMap pp with
        | none =>
          simp only
          rw [hcl]
          simp
        | some sib =>
          simp only [hcl]
          rw [alookup_aset_self]
          simp only [Option.getD_some]
          by_cases hppmem : pp ∈ id :: D.map TreeItem.id
          · have hnone := (removeFold_mem_none (id :: D.map TreeItem.id)
              (removePrepared s1 (id :: D.map TreeItem.id)) pp hppmem).2
            rw [hnone] at hcl
            cases hcl
          · have heq := (removeFold_not_mem (id :: D.map TreeItem.id)
              (removePrepared s1 (id :: D.map TreeItem.id)) pp hppmem).2
            rw [heq] at hcl
            unfold removePrepared at hcl
            simp only [hpres.2.2.1] at hcl
            exact removeFirstById_not_mem (hnd sib hcl)

def c5After : Store := (removeItem 10 c4Store (NodeId.num 2)).getD c4Store

/-- C5 witness: removing id 2 from the example tree cascades to 4 and 5
and detaches 2 from record 1; removing an unknown id is a no-op. -/
theorem C5_removeItem_spec_witness :
    removeItem 7 c4Store (NodeId.num 999) = some c4Store ∧
    alookup c4Store.itemsMap (NodeId.num 2) =
      some ⟨NodeId.num 2, some (NodeId.num 1), "a"⟩ ∧
    c4Store.allChildrenCache = [] ∧
    descend c4Store.childrenMap 3 (NodeId.num 2) =
      some [⟨NodeId.num 4, some (NodeId.num 2), "c"⟩,
            ⟨NodeId.num 5, some (NodeId.num 2), "d"⟩] ∧
    removeItem 10 c4Store (NodeId.num 2) = some c5After ∧
    (∀ x ∈ NodeId.num 2 ::
        ([⟨NodeId.num 4, some (NodeId.num 2), "c"⟩,
          ⟨NodeId.num 5, some (NodeId.num 2), "d"⟩] : List TreeItem).map TreeItem.id,
      getItem c5After x = none) ∧
    NodeId.num 2 ∉ (getChildren c5After (NodeId.num 1)).map TreeItem.id := by
  have h0 : alookup c4Store.itemsMap (NodeId.num 999) = none := by decide
  have hnoop := C5_removeItem_spec.1 7 c4Store (NodeId.num 999) h0
  have h1 : alookup c4Store.itemsMap (NodeId.num 2) =
      some ⟨NodeId.num 2, some (NodeId.num 1), "a"⟩ := by decide
  have h2 : c4Store.allChildrenCache = [] := by decide
  have h3 : descend c4Store.childrenMap 3 (NodeId.num 2) =
      some [⟨NodeId.num 4, some (NodeId.num 2), "c"⟩,
            ⟨NodeId.num 5, some (NodeId.num 2), "d"⟩] := by decide
  have h4 : removeItem 10 c4Store (NodeId.num 2) = some c5After := by decide
  have hmain := C5_removeItem_spec.2 10 3 c4Store (NodeId.num 2)
    ⟨NodeId.num 2, some (NodeId.num 1), "a"⟩
    [⟨NodeId.num 4, some (NodeId.num 2), "c"⟩, ⟨NodeId.num 5, some (NodeId.num 2), "d"⟩]
    c5After h1 h2 h3 h4
  have hpp : (⟨NodeId.num 2, some (NodeId.num 1), "a"⟩ : TreeItem).parent =
      some (NodeId.num 1) := by decide
  have hnd : ∀ l, alookup c4Store.childrenMap (NodeId.num 1) = some l →
      (l.map TreeItem.id).Nodup := by
    intro l hl
    have he : alookup c4Store.childrenMap (NodeId.num 1) =
        some [⟨NodeId.num 2, some (NodeId.num 1), "a"⟩,
              ⟨NodeId.num 3, some (NodeId.num 1), "b"⟩] := by decide
    rw [he] at hl
    obtain rfl := Option.some.inj hl
    decide
  exact ⟨hnoop, h1, h2, h3, h4, hmain.2.2.1,
    hmain.2.2.2.2 (NodeId.num 1) hpp hnd⟩

end TreeStore
